import Mathlib

/-! Shallow embedding of `lrucache.py`: an O(1) LRU cache built from a hash
map (`_ldict`) and a circular doubly linked list of `_LRUCacheLink` objects
threaded through a sentinel anchor, plus the `LRUTimeCache` TTL wrapper.

Python's mutable link objects are modelled by a heap: a function from node
ids (`Nat`) to link records.  The sentinel `_anchor` is the node with id 0;
`nextId` is the allocator counter for fresh link objects.  Python's `ANCHOR`
sentinel key is modelled by `none` in a link's `key` field, and a
never-assigned `obj` slot (the anchor's) by `none` in `obj`.  Methods that
can raise `KeyError` return `Option`; every `none` they produce arises from
the initial dictionary lookup, before any state is mutated, exactly as in
the source, so a failed call leaves the Python state unchanged. -/

set_option linter.unusedSectionVars false
set_option linter.unusedVariables false

namespace LRU

/-- The `_LRUCacheLink` object: slots `left`, `right`, `key`, `obj`.
`left` and `right` hold node ids of the neighbours in the circular list. -/
structure Link (K V : Type) where
  left : Nat
  right : Nat
  key : Option K
  obj : Option V

/-- The object heap: all allocated `_LRUCacheLink` objects, addressed by id. -/
abbrev Heap (K V : Type) := Nat → Link K V

variable {K V : Type} [DecidableEq K]

/-- Mutation `item.left = p` on the link object with id `i`. -/
def setLeft (H : Heap K V) (i p : Nat) : Heap K V :=
  fun j => if j = i then { H i with left := p } else H j

/-- Mutation `item.right = p` on the link object with id `i`. -/
def setRight (H : Heap K V) (i p : Nat) : Heap K V :=
  fun j => if j = i then { H i with right := p } else H j

/-- Mutation `item.key = k` on the link object with id `i`. -/
def setKey (H : Heap K V) (i : Nat) (k : Option K) : Heap K V :=
  fun j => if j = i then { H i with key := k } else H j

/-- Mutation `item.obj = v` on the link object with id `i`. -/
def setObj (H : Heap K V) (i : Nat) (v : Option V) : Heap K V :=
  fun j => if j = i then { H i with obj := v } else H j

/-- Dictionary read `d[k]` (`some` the bound node id, `none` = `KeyError`). -/
def dictGet : List (K × Nat) → K → Option Nat
  | [], _ => none
  | (k', i) :: d, k => if k' = k then some i else dictGet d k

/-- Dictionary removal `d.pop(k)`: drop the binding of `k`. -/
def dictPop (d : List (K × Nat)) (k : K) : List (K × Nat) :=
  d.filter fun p => decide (p.1 ≠ k)

/-- The `LRUCache` object.  `_size` is the fixed capacity, `_ldict` maps a
key to the id of its link object, the `_anchor` slot is heap id 0. -/
structure LRUCache (K V : Type) where
  _size : Nat
  heap : Heap K V
  _ldict : List (K × Nat)
  nextId : Nat

/-- `LRUCache.__init__`: `ValueError` (`InvalidConfiguration`) when the
requested size is below 2, modelled by `none`; otherwise the anchor (id 0)
points at itself on both sides and the dictionary is empty.  Unallocated
heap ids hold a blank link; only ids below `nextId` are ever reachable. -/
def LRUCache.init (size : Nat) : Option (LRUCache K V) :=
  if size < 2 then none
  else some
    { _size := size
      heap := fun _ => { left := 0, right := 0, key := none, obj := none }
      _ldict := []
      nextId := 1 }

namespace LRUCache

/-- `__len__`: number of live entries. -/
def __len__ (c : LRUCache K V) : Nat := c._ldict.length

/-- `has_key`: the `key in self._ldict` membership test. -/
def has_key (c : LRUCache K V) (key : K) : Bool :=
  (dictGet c._ldict key).isSome

/-- `keys()`: all present keys. -/
def keys (c : LRUCache K V) : List K := c._ldict.map Prod.fst

/-- `_link_item_as_top`: splice the link object `item` in directly to the
right of the anchor (the most-recently-used position). -/
def _link_item_as_top (c : LRUCache K V) (item : Nat) : LRUCache K V :=
  let anchor_r := (c.heap 0).right
  let h1 := setLeft c.heap item 0
  let h2 := setRight h1 item anchor_r
  let h3 := setLeft h2 anchor_r item
  let h4 := setRight h3 0 item
  { c with heap := h4 }

/-- `_move_to_top`: look the key up (`KeyError` = `none` when absent, raised
before any mutation), splice its link out by joining the two neighbours, and
relink it at the most-recently-used position. -/
def _move_to_top (c : LRUCache K V) (key : K) : Option (Nat × LRUCache K V) :=
  match dictGet c._ldict key with
  | none => none
  | some item =>
    let l_item := (c.heap item).left
    let r_item := (c.heap item).right
    let h1 := setRight c.heap l_item r_item
    let h2 := setLeft h1 r_item l_item
    some (item, _link_item_as_top { c with heap := h2 } item)

/-- `_remove_item`: `self._ldict.pop(key)` (a `KeyError`, i.e. `none`,
happens before any mutation; the argument is an `Option K` because the
eviction path passes `anchor.left.key`, which is the `ANCHOR` sentinel when
the list is empty and then cannot be a dictionary key), then splice the link
object out of the list and return it together with the new state. -/
def _remove_item (c : LRUCache K V) (key : Option K) :
    Option (Nat × LRUCache K V) :=
  match key with
  | none => none
  | some k =>
    match dictGet c._ldict k with
    | none => none
    | some item =>
      let d := dictPop c._ldict k
      let l_item := (c.heap item).left
      let r_item := (c.heap item).right
      let h1 := setRight c.heap l_item r_item
      let h2 := setLeft h1 r_item l_item
      some (item, { c with heap := h2, _ldict := d })

/-- `__delitem__ = _remove_item` (source line 106). -/
def __delitem__ (c : LRUCache K V) (key : Option K) :
    Option (Nat × LRUCache K V) :=
  _remove_item c key

/-- `__getitem__`: `self._move_to_top(key).obj`. -/
def __getitem__ (c : LRUCache K V) (key : K) :
    Option (Option V × LRUCache K V) :=
  (_move_to_top c key).map fun r => ((r.2.heap r.1).obj, r.2)

/-- `__setitem__`: overwrite in place and touch when the key exists; when it
is new, either reuse the link object of the evicted least-recently-used
entry (`self._anchor.left`) if the cache is full, or allocate a fresh link;
then set `obj`, `key`, link it as top and record it in the dictionary. -/
def __setitem__ (c : LRUCache K V) (key : K) (obj : V) :
    Option (LRUCache K V) :=
  if (dictGet c._ldict key).isSome then
    (_move_to_top c key).map fun r =>
      { r.2 with heap := setObj r.2.heap r.1 (some obj) }
  else if c.__len__ ≥ c._size then
    (_remove_item c ((c.heap (c.heap 0).left).key)).map fun r =>
      let h1 := setObj r.2.heap r.1 (some obj)
      let h2 := setKey h1 r.1 (some key)
      let c2 := _link_item_as_top { r.2 with heap := h2 } r.1
      { c2 with _ldict := (key, r.1) :: c2._ldict }
  else
    let new_item := c.nextId
    let h1 := setObj c.heap new_item (some obj)
    let h2 := setKey h1 new_item (some key)
    let c2 := _link_item_as_top { c with heap := h2, nextId := new_item + 1 }
      new_item
    some { c2 with _ldict := (key, new_item) :: c2._ldict }

/-- `pop`: `self._remove_item(key).obj`. -/
def pop (c : LRUCache K V) (key : K) : Option (Option V × LRUCache K V) :=
  (_remove_item c (some key)).map fun r => ((r.2.heap r.1).obj, r.2)

/-- `get` with a default (`get_or` in the spec): touch and return the stored
object when present, otherwise return the default and leave the state
untouched.  The default is an `Option V` because Python defaults to `None`. -/
def get (c : LRUCache K V) (key : K) (default : Option V) :
    Option V × LRUCache K V :=
  match _move_to_top c key with
  | some r => ((r.2.heap r.1).obj, r.2)
  | none => (default, c)

/-- `clean`: clear the dictionary and reset the anchor to point at itself
(`clear` in the spec).  The old link objects stay in the heap, unreachable. -/
def clean (c : LRUCache K V) : LRUCache K V :=
  { c with _ldict := [], heap := setRight (setLeft c.heap 0 0) 0 0 }

/-- `dict_copy`: the key/object pair of every link held in the dictionary. -/
def dict_copy (c : LRUCache K V) : List (Option K × Option V) :=
  c._ldict.map fun p => ((c.heap p.2).key, (c.heap p.2).obj)

end LRUCache

/-- The body of the `__repr__` while loop: walk `left` pointers from the
start node, collecting `(key, obj)` pairs, until a node carrying the
`ANCHOR` key (modelled `none`) is reached.  The source loop carries no fuel;
in well-formed states it visits each live entry once and stops at the
anchor, so any fuel of at least `__len__ + 1` reproduces it exactly (proved
below). -/
def reprAux (H : Heap K V) : Nat → Nat → List (K × Option V)
  | 0, _ => []
  | fuel + 1, i =>
    match (H i).key with
    | none => []
    | some k => (k, (H i).obj) :: reprAux H fuel (H i).left

/-- `__repr__` / `to_ordered_list` in the spec: the entries from
`anchor.left` following `left` pointers, i.e. least-recently-used first. -/
def LRUCache.__repr__ (c : LRUCache K V) : List (K × Option V) :=
  reprAux c.heap (c.__len__ + 1) ((c.heap 0).left)

/-- Walk `right` pointers from a start node, collecting node ids, stopping
when the anchor (id 0) is reached; `none` when the fuel runs out before the
walk closes, i.e. when no ring of that size returns to the anchor. -/
def walkRight (H : Heap K V) : Nat → Nat → Option (List Nat)
  | 0, _ => none
  | fuel + 1, i =>
    if i = 0 then some []
    else (walkRight H fuel (H i).right).map (i :: ·)

/-- The public mutating interface of `LRUCache`, for stating trace
invariants: `put` (`__setitem__`), `get` (`__getitem__`), `get` with a
default, `pop` and `clean`. -/
inductive Op (K V : Type) where
  | put (key : K) (obj : V)
  | get (key : K)
  | getWithDefault (key : K) (default : Option V)
  | pop (key : K)
  | clean

/-- One public call.  A call that raises `KeyError` (the `none` results)
leaves the state exactly as it was, because in the source every raise
happens at the initial dictionary lookup, before any mutation. -/
def applyOp (c : LRUCache K V) : Op K V → LRUCache K V
  | Op.put k v => (LRUCache.__setitem__ c k v).getD c
  | Op.get k =>
    match LRUCache.__getitem__ c k with
    | some r => r.2
    | none => c
  | Op.getWithDefault k d => (LRUCache.get c k d).2
  | Op.pop k =>
    match LRUCache.pop c k with
    | some r => r.2
    | none => c
  | Op.clean => LRUCache.clean c

/-- A sequence of public calls. -/
def run (c : LRUCache K V) (ops : List (Op K V)) : LRUCache K V :=
  ops.foldl applyOp c

/-- The `LRUTimeCache` object: a wrapped `LRUCache` storing
`(expiry, obj)` pairs, the configured TTL and the hit/miss counters.
Timestamps (`time.time()`) are modelled as explicit integer arguments. -/
structure LRUTimeCache (K V : Type) where
  _lru_cache : LRUCache K (Int × V)
  _ttl : Int
  _hits : Nat
  _misses : Nat

/-- `LRUTimeCache.__init__`: constructs the wrapped `LRUCache(size)`, which
raises (`none`) when `size < 2`. -/
def LRUTimeCache.init (size : Nat) (ttl : Int) : Option (LRUTimeCache K V) :=
  (LRUCache.init size).map fun c =>
    { _lru_cache := c, _ttl := ttl, _hits := 0, _misses := 0 }

namespace LRUTimeCache

/-- `clean`: clean the wrapped cache and reset both counters. -/
def clean (t : LRUTimeCache K V) : LRUTimeCache K V :=
  { t with _lru_cache := LRUCache.clean t._lru_cache, _hits := 0,
           _misses := 0 }

/-- `stats() -> (hits, misses, current_cache_size)`. -/
def stats (t : LRUTimeCache K V) : Nat × Nat × Nat :=
  (t._hits, t._misses, t._lru_cache.__len__)

/-- `put`: store `(time.time() + self._ttl, obj)` through `__setitem__`;
`now` is the current timestamp. -/
def put (t : LRUTimeCache K V) (key : K) (obj : V) (now : Int) :
    Option (LRUTimeCache K V) :=
  (LRUCache.__setitem__ t._lru_cache key (now + t._ttl, obj)).map fun c =>
    { t with _lru_cache := c }

/-- `get`: look the key up through `__getitem__` (a `KeyError` is caught,
counts a miss and is re-raised: the `(none, _)` results).  When the stored
expiry is strictly before `now`, delete the entry via `__delitem__`, count a
miss and raise; otherwise count a hit and return the unwrapped object.  The
outer `none` marks the only path with no Python counterpart result: reading
`obj[0]` from a link whose `obj` slot was never assigned, which is
impossible in well-formed states (proved below). -/
def get (t : LRUTimeCache K V) (key : K) (now : Int) :
    Option (Option V × LRUTimeCache K V) :=
  match LRUCache.__getitem__ t._lru_cache key with
  | none => some (none, { t with _misses := t._misses + 1 })
  | some (obj, c1) =>
    match obj with
    | none => none
    | some (expiry, v) =>
      if expiry < now then
        match LRUCache.__delitem__ c1 (some key) with
        | some r =>
          some (none, { t with _lru_cache := r.2, _misses := t._misses + 1 })
        | none =>
          some (none, { t with _lru_cache := c1, _misses := t._misses + 1 })
      else
        some (some v, { t with _lru_cache := c1, _hits := t._hits + 1 })

end LRUTimeCache

/-- The public calls of `LRUTimeCache`, with explicit timestamps. -/
inductive TOp (K V : Type) where
  | put (key : K) (obj : V) (now : Int)
  | get (key : K) (now : Int)
  | clean

/-- One public `LRUTimeCache` call.  As for the core, the fallback branches
replay the entry state and are taken only on paths that cannot occur in
well-formed states. -/
def applyTOp (t : LRUTimeCache K V) : TOp K V → LRUTimeCache K V
  | TOp.put k v now => (LRUTimeCache.put t k v now).getD t
  | TOp.get k now =>
    match LRUTimeCache.get t k now with
    | some r => r.2
    | none => t
  | TOp.clean => LRUTimeCache.clean t

/-- A sequence of public `LRUTimeCache` calls. -/
def runT (t : LRUTimeCache K V) (ops : List (TOp K V)) : LRUTimeCache K V :=
  ops.foldl applyTOp t

/-- The number of `get` calls issued after the last `clean` (or after
construction when no `clean` occurs), starting the count at `n`. -/
def getCountFrom (n : Nat) (ops : List (TOp K V)) : Nat :=
  ops.foldl
    (fun m op =>
      match op with
      | TOp.put _ _ _ => m
      | TOp.get _ _ => m + 1
      | TOp.clean => 0) n

/-! The abstract view of a cache state: a list of `(id, key, value)`
entries in order from most- to least-recently-used. -/

abbrev Abs (K V : Type) := List (Nat × K × V)

/-- The link ids of the abstract entries, most-recently-used first. -/
def absIds (abs : Abs K V) : List Nat := abs.map fun e => e.1

/-- The keys of the abstract entries, most-recently-used first. -/
def absKeys (abs : Abs K V) : List K := abs.map fun e => e.2.1

/-- The dictionary the abstract entries describe. -/
def absDict (abs : Abs K V) : List (K × Nat) := abs.map fun e => (e.2.1, e.1)

/-! The ring predicate.  `seg H p l q` says: starting at node `p`, the
`right` pointers pass exactly through the nodes of `l` in order and then
reach `q`, and every step has the matching `left` back-pointer.  The whole
circular list of a cache is `seg H 0 ids 0` with `ids` the live link ids in
most-recently-used-first order. -/

def seg (H : Heap K V) : Nat → List Nat → Nat → Prop
  | p, [], q => (H p).right = q ∧ (H q).left = p
  | p, i :: l, q => (H p).right = i ∧ (H i).left = p ∧ seg H i l q

/-- Well-formedness of a cache state, witnessed by its abstract view `abs`
(the live entries, most-recently-used first): the link ids of `abs` form the
circular list around the anchor, ids and keys are duplicate-free, every
live link carries its key and object, the dictionary holds exactly the
key-to-id associations of `abs`, and the entry count respects the fixed
capacity, which is at least 2. -/
structure WF (c : LRUCache K V) (abs : Abs K V) : Prop where
  ring : seg c.heap 0 (absIds abs) 0
  idsNodup : (absIds abs).Nodup
  idsPos : ∀ i ∈ absIds abs, i ≠ 0
  idsLt : ∀ i ∈ absIds abs, i < c.nextId
  nextPos : 1 ≤ c.nextId
  data : ∀ e ∈ abs, (c.heap e.1).key = some e.2.1 ∧ (c.heap e.1).obj = some e.2.2
  keysNodup : (absKeys abs).Nodup
  dict : c._ldict.Perm (absDict abs)
  anchorKey : (c.heap 0).key = none
  capLe : abs.length ≤ c._size
  cap2 : 2 ≤ c._size

/-- The key/value pairs of the abstract view, most-recently-used first. -/
def absKV (abs : Abs K V) : List (K × V) := abs.map fun e => (e.2.1, e.2.2)

/-- Decidability of segments, so that witnesses can check the
well-formedness of explicit states by evaluation. -/
def decSeg (H : Heap K V) : (p : Nat) → (l : List Nat) → (q : Nat) →
    Decidable (seg H p l q)
  | p, [], q =>
    inferInstanceAs (Decidable ((H p).right = q ∧ (H q).left = p))
  | p, i :: l, q =>
    have : Decidable (seg H i l q) := decSeg H i l q
    inferInstanceAs (Decidable ((H p).right = i ∧ (H i).left = p ∧
      seg H i l q))

instance (H : Heap K V) (p q : Nat) (l : List Nat) :
    Decidable (seg H p l q) :=
  decSeg H p l q

/-- Concrete example states used by the witnesses below. -/
def exC0 : LRUCache Nat Nat :=
  (LRUCache.init 3).getD
    { _size := 3
      heap := fun _ => { left := 0, right := 0, key := none, obj := none }
      _ldict := []
      nextId := 1 }

/-- Capacity-3 cache with keys 1, 2, 3 (values 11, 22, 33) put in order. -/
def exC123 : LRUCache Nat Nat :=
  run exC0 [Op.put 1 11, Op.put 2 22, Op.put 3 33]

/-- A TTL cache of capacity 2 and TTL `-1`. -/
def exT0 : LRUTimeCache Nat Nat :=
  (LRUTimeCache.init 2 (-1)).getD
    { _lru_cache :=
        { _size := 2
          heap := fun _ => { left := 0, right := 0, key := none, obj := none }
          _ldict := []
          nextId := 1 }
      _ttl := -1
      _hits := 0
      _misses := 0 }

/-- `exT0` after `put(1, 10)` at time 0 (stored expiry `-1`). -/
def exT1 : LRUTimeCache Nat Nat :=
  runT exT0 [TOp.put 1 10 0]

/-! Field-level reading lemmas for the four heap mutations: each mutation
changes exactly one slot of exactly one link object. -/

@[simp]
theorem setLeft_left_self (H : Heap K V) (i p : Nat) :
    ((setLeft H i p) i).left = p := by
  simp [setLeft]

theorem setLeft_left_ne (H : Heap K V) (i p j : Nat) (h : j ≠ i) :
    ((setLeft H i p) j).left = (H j).left := by
  simp [setLeft, h]

@[simp]
theorem setLeft_right (H : Heap K V) (i p j : Nat) :
    ((setLeft H i p) j).right = (H j).right := by
  simp only [setLeft]
  split
  · rename_i h; subst h; rfl
  · rfl

@[simp]
theorem setLeft_key (H : Heap K V) (i p j : Nat) :
    ((setLeft H i p) j).key = (H j).key := by
  simp only [setLeft]
  split
  · rename_i h; subst h; rfl
  · rfl

@[simp]
theorem setLeft_obj (H : Heap K V) (i p j : Nat) :
    ((setLeft H i p) j).obj = (H j).obj := by
  simp only [setLeft]
  split
  · rename_i h; subst h; rfl
  · rfl

@[simp]
theorem setRight_right_self (H : Heap K V) (i p : Nat) :
    ((setRight H i p) i).right = p := by
  simp [setRight]

theorem setRight_right_ne (H : Heap K V) (i p j : Nat) (h : j ≠ i) :
    ((setRight H i p) j).right = (H j).right := by
  simp [setRight, h]

@[simp]
theorem setRight_left (H : Heap K V) (i p j : Nat) :
    ((setRight H i p) j).left = (H j).left := by
  simp only [setRight]
  split
  · rename_i h; subst h; rfl
  · rfl

@[simp]
theorem setRight_key (H : Heap K V) (i p j : Nat) :
    ((setRight H i p) j).key = (H j).key := by
  simp only [setRight]
  split
  · rename_i h; subst h; rfl
  · rfl

@[simp]
theorem setRight_obj (H : Heap K V) (i p j : Nat) :
    ((setRight H i p) j).obj = (H j).obj := by
  simp only [setRight]
  split
  · rename_i h; subst h; rfl
  · rfl

@[simp]
theorem setKey_key_self (H : Heap K V) (i : Nat) (k : Option K) :
    ((setKey H i k) i).key = k := by
  simp [setKey]

theorem setKey_key_ne (H : Heap K V) (i : Nat) (k : Option K) (j : Nat)
    (h : j ≠ i) : ((setKey H i k) j).key = (H j).key := by
  simp [setKey, h]

@[simp]
theorem setKey_left (H : Heap K V) (i : Nat) (k : Option K) (j : Nat) :
    ((setKey H i k) j).left = (H j).left := by
  simp only [setKey]
  split
  · rename_i h; subst h; rfl
  · rfl

@[simp]
theorem setKey_right (H : Heap K V) (i : Nat) (k : Option K) (j : Nat) :
    ((setKey H i k) j).right = (H j).right := by
  simp only [setKey]
  split
  · rename_i h; subst h; rfl
  · rfl

@[simp]
theorem setKey_obj (H : Heap K V) (i : Nat) (k : Option K) (j : Nat) :
    ((setKey H i k) j).obj = (H j).obj := by
  simp only [setKey]
  split
  · rename_i h; subst h; rfl
  · rfl

@[simp]
theorem setObj_obj_self (H : Heap K V) (i : Nat) (v : Option V) :
    ((setObj H i v) i).obj = v := by
  simp [setObj]

theorem setObj_obj_ne (H : Heap K V) (i : Nat) (v : Option V) (j : Nat)
    (h : j ≠ i) : ((setObj H i v) j).obj = (H j).obj := by
  simp [setObj, h]

@[simp]
theorem setObj_left (H : Heap K V) (i : Nat) (v : Option V) (j : Nat) :
    ((setObj H i v) j).left = (H j).left := by
  simp only [setObj]
  split
  · rename_i h; subst h; rfl
  · rfl

@[simp]
theorem setObj_right (H : Heap K V) (i : Nat) (v : Option V) (j : Nat) :
    ((setObj H i v) j).right = (H j).right := by
  simp only [setObj]
  split
  · rename_i h; subst h; rfl
  · rfl

@[simp]
theorem setObj_key (H : Heap K V) (i : Nat) (v : Option V) (j : Nat) :
    ((setObj H i v) j).key = (H j).key := by
  simp only [setObj]
  split
  · rename_i h; subst h; rfl
  · rfl

/-! Dictionary lemmas. -/

theorem dictGet_eq_none_iff (d : List (K × Nat)) (k : K) :
    dictGet d k = none ↔ k ∉ d.map Prod.fst := by
  induction d with
  | nil => simp [dictGet]
  | cons p d ih =>
    obtain ⟨k', i⟩ := p
    by_cases h : k' = k
    · subst h
      simp [dictGet]
    · simp [dictGet, h, ih, Ne.symm h]

theorem mem_of_dictGet_eq_some (d : List (K × Nat)) (k : K) (i : Nat)
    (h : dictGet d k = some i) : (k, i) ∈ d := by
  induction d with
  | nil => simp [dictGet] at h
  | cons p d ih =>
    obtain ⟨k', i'⟩ := p
    by_cases hk : k' = k
    · subst hk
      simp [dictGet] at h
      subst h
      exact List.mem_cons_self _ _
    · simp [dictGet, hk] at h
      exact List.mem_cons_of_mem _ (ih h)

theorem dictGet_eq_some_of_mem (d : List (K × Nat)) (k : K) (i : Nat)
    (hnd : (d.map Prod.fst).Nodup) (h : (k, i) ∈ d) : dictGet d k = some i := by
  induction d with
  | nil => simp at h
  | cons p d ih =>
    obtain ⟨k', i'⟩ := p
    simp only [List.map_cons, List.nodup_cons] at hnd
    rcases List.mem_cons.1 h with h | h
    · rw [Prod.mk.injEq] at h
      obtain ⟨h1, h2⟩ := h
      simp [dictGet, h1.symm, h2.symm]
    · have hk : k' ≠ k := by
        rintro rfl
        exact hnd.1 (List.mem_map.2 ⟨(k', i), h, rfl⟩)
      simp [dictGet, hk]
      exact ih hnd.2 h

theorem dictGet_perm (d d' : List (K × Nat)) (hperm : d.Perm d')
    (hnd : (d.map Prod.fst).Nodup) (k : K) : dictGet d k = dictGet d' k := by
  cases hd : dictGet d k with
  | none =>
    rw [dictGet_eq_none_iff] at hd
    rw [eq_comm, dictGet_eq_none_iff]
    exact fun hmem => hd (((hperm.map Prod.fst).mem_iff).2 hmem)
  | some i =>
    have hmem := mem_of_dictGet_eq_some d k i hd
    rw [eq_comm]
    exact dictGet_eq_some_of_mem d' k i
      (((hperm.map Prod.fst).nodup_iff).1 hnd) (hperm.mem_iff.1 hmem)

theorem dictGet_dictPop_self (d : List (K × Nat)) (k : K) :
    dictGet (dictPop d k) k = none := by
  rw [dictGet_eq_none_iff]
  intro hmem
  obtain ⟨p, hp, hpk⟩ := List.mem_map.1 hmem
  have := List.of_mem_filter hp
  simp [hpk] at this

@[simp]
theorem absIds_nil : absIds ([] : Abs K V) = [] := rfl

@[simp]
theorem absIds_cons (e : Nat × K × V) (abs : Abs K V) :
    absIds (e :: abs) = e.1 :: absIds abs := rfl

@[simp]
theorem absIds_append (a b : Abs K V) :
    absIds (a ++ b) = absIds a ++ absIds b := List.map_append _ a b

@[simp]
theorem absKeys_nil : absKeys ([] : Abs K V) = [] := rfl

@[simp]
theorem absKeys_cons (e : Nat × K × V) (abs : Abs K V) :
    absKeys (e :: abs) = e.2.1 :: absKeys abs := rfl

@[simp]
theorem absKeys_append (a b : Abs K V) :
    absKeys (a ++ b) = absKeys a ++ absKeys b := List.map_append _ a b

@[simp]
theorem absDict_nil : absDict ([] : Abs K V) = [] := rfl

@[simp]
theorem absDict_cons (e : Nat × K × V) (abs : Abs K V) :
    absDict (e :: abs) = (e.2.1, e.1) :: absDict abs := rfl

@[simp]
theorem absDict_append (a b : Abs K V) :
    absDict (a ++ b) = absDict a ++ absDict b := List.map_append _ a b

@[simp]
theorem absIds_length (abs : Abs K V) : (absIds abs).length = abs.length :=
  List.length_map _ _

@[simp]
theorem absDict_length (abs : Abs K V) : (absDict abs).length = abs.length :=
  List.length_map _ _

theorem absDict_fst (abs : Abs K V) :
    (absDict abs).map Prod.fst = absKeys abs := by
  simp [absDict, absKeys, List.map_map]

theorem dictPop_absDict (xs ys : Abs K V) (e : Nat × K × V)
    (hnd : (absKeys (xs ++ e :: ys)).Nodup) :
    dictPop (absDict (xs ++ e :: ys)) e.2.1 = absDict (xs ++ ys) := by
  simp only [absKeys_append, absKeys_cons] at hnd
  rw [List.nodup_append] at hnd
  obtain ⟨hxs, hys, hdisj⟩ := hnd
  have hxse : ∀ k ∈ absKeys xs, k ≠ e.2.1 := fun k hk hke =>
    hdisj hk (hke ▸ List.mem_cons_self _ _)
  have hyse : e.2.1 ∉ absKeys ys := (List.nodup_cons.1 hys).1
  have h1 : List.filter (fun p => decide (p.1 ≠ e.2.1)) (absDict xs)
      = absDict xs := by
    rw [List.filter_eq_self]
    intro p hp
    obtain ⟨q, hq, hqp⟩ := List.mem_map.1 hp
    simp only [← hqp, decide_eq_true_eq]
    exact hxse q.2.1 (List.mem_map.2 ⟨q, hq, rfl⟩)
  have h2 : List.filter (fun p => decide (p.1 ≠ e.2.1)) (absDict ys)
      = absDict ys := by
    rw [List.filter_eq_self]
    intro p hp
    obtain ⟨q, hq, hqp⟩ := List.mem_map.1 hp
    simp only [← hqp, decide_eq_true_eq]
    intro hqe
    exact hyse (hqe ▸ List.mem_map.2 ⟨q, hq, rfl⟩)
  rw [dictPop, absDict_append, absDict_cons, List.filter_append,
    List.filter_cons, h1, h2, absDict_append]
  simp

theorem headD_mem_cons {α : Type} (l : List α) (a : α) : l.headD a ∈ a :: l := by
  cases l <;> simp

@[simp]
theorem seg_nil (H : Heap K V) (p q : Nat) :
    seg H p [] q ↔ (H p).right = q ∧ (H q).left = p := Iff.rfl

@[simp]
theorem seg_cons (H : Heap K V) (p i q : Nat) (l : List Nat) :
    seg H p (i :: l) q ↔ (H p).right = i ∧ (H i).left = p ∧ seg H i l q :=
  Iff.rfl

/-- A segment only reads the `right` slot of its start, the `left` and
`right` slots of its interior nodes and the `left` slot of its end, so it
transfers to any heap agreeing there. -/
theorem seg_congr (H H' : Heap K V) (p q : Nat) (l : List Nat) :
    (H' p).right = (H p).right →
    (∀ i ∈ l, (H' i).left = (H i).left ∧ (H' i).right = (H i).right) →
    (H' q).left = (H q).left →
    seg H p l q → seg H' p l q := by
  induction l generalizing p with
  | nil =>
    intro hp _ hq h
    exact ⟨hp.trans h.1, hq.trans h.2⟩
  | cons i l ih =>
    intro hp hl hq h
    obtain ⟨h1, h2, h3⟩ := h
    exact ⟨hp.trans h1, ((hl i (List.mem_cons_self _ _)).1).trans h2,
      ih i ((hl i (List.mem_cons_self _ _)).2)
        (fun m hm => hl m (List.mem_cons_of_mem _ hm)) hq h3⟩

theorem seg_append (H : Heap K V) (p q i : Nat) (l₁ l₂ : List Nat) :
    seg H p (l₁ ++ i :: l₂) q ↔ seg H p l₁ i ∧ seg H i l₂ q := by
  induction l₁ generalizing p with
  | nil => simp [and_assoc]
  | cons x l₁ ih => simp [ih, and_assoc]

theorem seg_head_right (H : Heap K V) (p q : Nat) (l : List Nat)
    (h : seg H p l q) : (H p).right = l.headD q := by
  cases l
  · exact h.1
  · exact h.1

theorem seg_last_left (H : Heap K V) (p q : Nat) (l : List Nat)
    (h : seg H p l q) : (H q).left = l.getLastD p := by
  induction l generalizing p with
  | nil => exact h.2
  | cons i l ih => rw [List.getLastD_cons]; exact ih i h.2.2

/-- Keys do not occur in a segment, so `setKey` preserves it. -/
theorem seg_setKey (H : Heap K V) (i : Nat) (k : Option K) (p q : Nat)
    (l : List Nat) (h : seg H p l q) : seg (setKey H i k) p l q :=
  seg_congr H (setKey H i k) p q l (by simp) (fun m _ => ⟨by simp, by simp⟩)
    (by simp) h

/-- Objects do not occur in a segment, so `setObj` preserves it. -/
theorem seg_setObj (H : Heap K V) (i : Nat) (v : Option V) (p q : Nat)
    (l : List Nat) (h : seg H p l q) : seg (setObj H i v) p l q :=
  seg_congr H (setObj H i v) p q l (by simp) (fun m _ => ⟨by simp, by simp⟩)
    (by simp) h

/-- Splicing a node out of a segment: joining its two neighbours directly
(the two pointer writes of `_move_to_top` / `_remove_item`) yields the
segment without that node. -/
theorem seg_unlink (H : Heap K V) (q i : Nat) (l₂ : List Nat)
    (hq2 : q ∉ l₂) (hi2 : i ∉ l₂) (hnd2 : l₂.Nodup)
    (l₁ : List Nat) (p : Nat)
    (h : seg H p (l₁ ++ i :: l₂) q)
    (hp2 : p ∉ l₂) (hpi : p ≠ i) (hp1 : p ∉ l₁) (hq1 : q ∉ l₁)
    (hi1 : i ∉ l₁) (hnd1 : l₁.Nodup) (hdisj : ∀ x ∈ l₁, x ∉ l₂) :
    seg (setLeft (setRight H (H i).left (H i).right) (H i).right (H i).left)
      p (l₁ ++ l₂) q := by
  induction l₁ generalizing p with
  | nil =>
    simp only [List.nil_append] at h ⊢
    obtain ⟨h1, h2, h3⟩ := h
    have hr : (H i).right = l₂.headD q := seg_head_right H i q l₂ h3
    cases l₂ with
    | nil =>
      simp only [List.headD_nil] at hr
      rw [h2, hr]
      exact ⟨by simp, by simp⟩
    | cons j l₂' =>
      simp only [List.headD_cons] at hr
      rw [h2, hr]
      obtain ⟨h4, h5, h6⟩ := h3
      have hjp : j ≠ p := fun hjp => hp2 (hjp ▸ List.mem_cons_self j l₂')
      have hj2 : j ∉ l₂' := (List.nodup_cons.1 hnd2).1
      refine ⟨?_, by simp, ?_⟩
      · rw [setLeft_right, setRight_right_self]
      · refine seg_congr H _ j q l₂' ?_ (fun m hm => ⟨?_, ?_⟩) ?_ h6
        · rw [setLeft_right, setRight_right_ne _ _ _ _ hjp]
        · have hmj : m ≠ j := fun hmj => hj2 (hmj ▸ hm)
          rw [setLeft_left_ne _ _ _ _ hmj, setRight_left]
        · have hmp : m ≠ p := fun hmp =>
            hp2 (hmp ▸ List.mem_cons_of_mem j hm)
          rw [setLeft_right, setRight_right_ne _ _ _ _ hmp]
        · have hqj : q ≠ j := fun hqj => hq2 (hqj ▸ List.mem_cons_self j l₂')
          rw [setLeft_left_ne _ _ _ _ hqj, setRight_left]
  | cons x l₁' ih =>
    simp only [List.cons_append] at h ⊢
    obtain ⟨h1, h2, h3⟩ := h
    have hxl : x ∉ l₁' := (List.nodup_cons.1 hnd1).1
    have hseg' := ih x h3 (hdisj x (List.mem_cons_self _ _))
      (fun hxi => hi1 (hxi ▸ List.mem_cons_self x l₁')) hxl
      (fun hq => hq1 (List.mem_cons_of_mem x hq))
      (fun hi => hi1 (List.mem_cons_of_mem x hi))
      (List.nodup_cons.1 hnd1).2
      (fun y hy => hdisj y (List.mem_cons_of_mem x hy))
    have hil : (H i).left = l₁'.getLastD x := by
      have hsplit := (seg_append H x q i l₁' l₂).1 h3
      exact seg_last_left H x i l₁' hsplit.1
    have hirr : (H i).right = l₂.headD q := by
      have hsplit := (seg_append H x q i l₁' l₂).1 h3
      exact seg_head_right H i q l₂ hsplit.2
    have hpl : p ≠ (H i).left := by
      rw [hil]
      intro hp
      rcases List.mem_cons.1 (hp ▸ List.getLastD_mem_cons l₁' x) with h | h
      · exact hp1 (h ▸ List.mem_cons_self x l₁')
      · exact hp1 (List.mem_cons_of_mem x h)
    have hxr : x ≠ (H i).right := by
      rw [hirr]
      intro hx
      rcases List.mem_cons.1 (hx ▸ headD_mem_cons l₂ q) with h | h
      · exact hq1 (h ▸ List.mem_cons_self x l₁')
      · exact hdisj x (List.mem_cons_self x l₁') h
    refine ⟨?_, ?_, hseg'⟩
    · rw [setLeft_right, setRight_right_ne _ _ _ _ hpl, h1]
    · rw [setLeft_left_ne _ _ _ _ hxr, setRight_left, h2]

/-- Unlinking a node from the circular list of a cache. -/
theorem ring_unlink (H : Heap K V) (l₁ l₂ : List Nat) (i : Nat)
    (h : seg H 0 (l₁ ++ i :: l₂) 0)
    (h0 : 0 ∉ l₁ ++ i :: l₂) (hnd : (l₁ ++ i :: l₂).Nodup) :
    seg (setLeft (setRight H (H i).left (H i).right) (H i).right (H i).left)
      0 (l₁ ++ l₂) 0 := by
  rw [List.nodup_append] at hnd
  obtain ⟨hnd1, hnd2', hdisj⟩ := hnd
  rw [List.nodup_cons] at hnd2'
  simp only [List.mem_append, List.mem_cons] at h0
  push_neg at h0
  refine seg_unlink H 0 i l₂ (fun hq => h0.2.2 hq) hnd2'.1
    hnd2'.2 l₁ 0
    h (fun hp => h0.2.2 hp) h0.2.1 h0.1 h0.1
    (fun hi => hdisj hi (List.mem_cons_self _ _)) hnd1
    (fun x hx hx2 => hdisj hx (List.mem_cons_of_mem _ hx2))

/-- `_link_item_as_top` splices a node not on the ring in as the new head
(most-recently-used entry) of the ring. -/
theorem ring_link_top (c : LRUCache K V) (ids : List Nat) (i : Nat)
    (h : seg c.heap 0 ids 0) (hnd : ids.Nodup) (h0 : 0 ∉ ids)
    (hi : i ∉ ids) (hi0 : i ≠ 0) :
    seg (c._link_item_as_top i).heap 0 (i :: ids) 0 := by
  have hA : (c.heap 0).right = ids.headD 0 := seg_head_right _ _ _ _ h
  have hiA : i ≠ (c.heap 0).right := by
    rw [hA]
    intro hx
    rcases List.mem_cons.1 (hx ▸ headD_mem_cons ids 0) with hh | hh
    · exact hi0 hh
    · exact hi hh
  show seg _ 0 (i :: ids) 0
  simp only [LRUCache._link_item_as_top]
  refine ⟨by simp, ?_, ?_⟩
  · rw [setRight_left, setLeft_left_ne _ _ _ _ hiA, setRight_left,
      setLeft_left_self]
  · cases ids with
    | nil =>
      simp only [List.headD_nil] at hA
      refine ⟨?_, ?_⟩
      · rw [setRight_right_ne _ _ _ _ hi0, setLeft_right,
          setRight_right_self, hA]
      · rw [setRight_left, hA, setLeft_left_self]
    | cons j ids' =>
      simp only [List.headD_cons] at hA
      obtain ⟨h1, h2, h3⟩ := h
      have hj0 : j ≠ 0 := fun hj => h0 (hj ▸ List.mem_cons_self j ids')
      have hji : j ≠ i := fun hj => hi (hj ▸ List.mem_cons_self j ids')
      have hjndup : j ∉ ids' := (List.nodup_cons.1 hnd).1
      refine ⟨?_, ?_, ?_⟩
      · rw [setRight_right_ne _ _ _ _ hi0, setLeft_right,
          setRight_right_self, hA]
      · rw [setRight_left, hA, setLeft_left_self]
      · refine seg_congr c.heap _ j 0 ids' ?_ (fun m hm => ⟨?_, ?_⟩) ?_ h3
        · rw [setRight_right_ne _ _ _ _ hj0, setLeft_right,
            setRight_right_ne _ _ _ _ hji, setLeft_right]
        · have hmj : m ≠ j := fun hmj => hjndup (hmj ▸ hm)
          have hmi : m ≠ i := fun hmi =>
            hi (hmi ▸ List.mem_cons_of_mem j hm)
          rw [setRight_left, hA, setLeft_left_ne _ _ _ _ hmj, setRight_left,
            setLeft_left_ne _ _ _ _ hmi]
        · have hm0 : m ≠ 0 := fun hm0 =>
            h0 (hm0 ▸ List.mem_cons_of_mem j hm)
          have hmi : m ≠ i := fun hmi =>
            hi (hmi ▸ List.mem_cons_of_mem j hm)
          rw [setRight_right_ne _ _ _ _ hm0, setLeft_right,
            setRight_right_ne _ _ _ _ hmi, setLeft_right]
        · have h0j : (0 : Nat) ≠ j := fun h0j =>
            h0 (h0j ▸ List.mem_cons_self j ids')
          have h0i : (0 : Nat) ≠ i := Ne.symm hi0
          rw [setRight_left, hA, setLeft_left_ne _ _ _ _ h0j, setRight_left,
            setLeft_left_ne _ _ _ _ h0i]

theorem WF.len_eq {c : LRUCache K V} {abs : Abs K V} (hwf : WF c abs) :
    c.__len__ = abs.length := by
  rw [LRUCache.__len__, hwf.dict.length_eq, absDict_length]

theorem WF.ldict_keys_nodup {c : LRUCache K V} {abs : Abs K V}
    (hwf : WF c abs) : (c._ldict.map Prod.fst).Nodup :=
  ((hwf.dict.map Prod.fst).nodup_iff).2 (absDict_fst abs ▸ hwf.keysNodup)

theorem WF.dictGet_eq {c : LRUCache K V} {abs : Abs K V} (hwf : WF c abs)
    (k : K) : dictGet c._ldict k = dictGet (absDict abs) k :=
  dictGet_perm _ _ hwf.dict hwf.ldict_keys_nodup k

theorem WF.dictGet_present {c : LRUCache K V} {xs ys : Abs K V}
    {e : Nat × K × V} (hwf : WF c (xs ++ e :: ys)) :
    dictGet c._ldict e.2.1 = some e.1 := by
  rw [hwf.dictGet_eq]
  have hnd : ((absDict (xs ++ e :: ys)).map Prod.fst).Nodup := by
    rw [absDict_fst]
    exact hwf.keysNodup
  exact dictGet_eq_some_of_mem _ _ _ hnd
    (List.mem_map.2 ⟨e, List.mem_append_right _ (List.mem_cons_self _ _), rfl⟩)

theorem WF.dictGet_absent {c : LRUCache K V} {abs : Abs K V}
    (hwf : WF c abs) {k : K} (hk : k ∉ absKeys abs) :
    dictGet c._ldict k = none := by
  rw [hwf.dictGet_eq, dictGet_eq_none_iff, absDict_fst]
  exact hk

/-- The most-recently-used-first order of the live entries is permuted, not
changed in membership, by moving an interior entry to the front. -/
theorem abs_perm_middle (xs ys : Abs K V) (e : Nat × K × V) :
    (xs ++ e :: ys).Perm (e :: (xs ++ ys)) :=
  List.perm_middle

/-- Specification of `_move_to_top` on a well-formed state whose entry for
the requested key is `e`: it returns `e`'s link id, moves `e` to the
most-recently-used position and changes nothing else. -/
theorem _move_to_top_spec (c : LRUCache K V) (xs ys : Abs K V)
    (e : Nat × K × V) (hwf : WF c (xs ++ e :: ys)) :
    ∃ c', c._move_to_top e.2.1 = some (e.1, c') ∧
      WF c' (e :: (xs ++ ys)) ∧
      c'._ldict = c._ldict ∧ c'._size = c._size ∧ c'.nextId = c.nextId ∧
      ∀ j : Nat, (c'.heap j).key = (c.heap j).key ∧
        (c'.heap j).obj = (c.heap j).obj := by
  have hd : dictGet c._ldict e.2.1 = some e.1 := hwf.dictGet_present
  have hperm := abs_perm_middle xs ys e
  have hidsperm : (absIds (xs ++ e :: ys)).Perm (absIds (e :: (xs ++ ys))) :=
    hperm.map _
  have hkeysperm :
      (absKeys (xs ++ e :: ys)).Perm (absKeys (e :: (xs ++ ys))) :=
    hperm.map _
  have he1 : e.1 ∈ absIds (xs ++ e :: ys) :=
    List.mem_map.2 ⟨e, List.mem_append_right _ (List.mem_cons_self _ _), rfl⟩
  have hringmid : seg c.heap 0 (absIds xs ++ e.1 :: absIds ys) 0 := by
    have := hwf.ring
    simpa using this
  have h0mid : 0 ∉ absIds xs ++ e.1 :: absIds ys := by
    intro hmem
    have : (0 : Nat) ∈ absIds (xs ++ e :: ys) := by simpa using hmem
    exact hwf.idsPos 0 this rfl
  have hndmid : (absIds xs ++ e.1 :: absIds ys).Nodup := by
    have := hwf.idsNodup
    simpa using this
  have hunlink := ring_unlink c.heap (absIds xs) (absIds ys) e.1
    hringmid h0mid hndmid
  set h2 : Heap K V :=
    setLeft (setRight c.heap (c.heap e.1).left (c.heap e.1).right)
      (c.heap e.1).right (c.heap e.1).left with hh2
  have hlink := ring_link_top { c with heap := h2 } (absIds xs ++ absIds ys)
    e.1 hunlink
    (by
      have := hndmid
      rw [List.nodup_append] at this ⊢
      rw [List.nodup_cons] at this
      exact ⟨this.1, this.2.1.2, fun a ha ha2 =>
        this.2.2 ha (List.mem_cons_of_mem _ ha2)⟩)
    (by
      intro hmem
      rcases List.mem_append.1 hmem with hmem | hmem
      · exact h0mid (List.mem_append_left _ hmem)
      · exact h0mid (List.mem_append_right _ (List.mem_cons_of_mem _ hmem)))
    (by
      rw [List.nodup_append] at hndmid
      intro hmem
      rcases List.mem_append.1 hmem with hmem | hmem
      · exact hndmid.2.2 hmem (List.mem_cons_self _ _)
      · exact (List.nodup_cons.1 hndmid.2.1).1 hmem)
    (hwf.idsPos e.1 he1)
  refine ⟨LRUCache._link_item_as_top { c with heap := h2 } e.1, ?_, ?_, ?_,
    rfl, rfl, ?_⟩
  · rw [LRUCache._move_to_top, hd]
  · have hkeyobj : ∀ j : Nat,
        ((LRUCache._link_item_as_top { c with heap := h2 } e.1).heap j).key
          = (c.heap j).key ∧
        ((LRUCache._link_item_as_top { c with heap := h2 } e.1).heap j).obj
          = (c.heap j).obj := by
      intro j
      constructor
      · simp [LRUCache._link_item_as_top, hh2]
      · simp [LRUCache._link_item_as_top, hh2]
    refine ⟨?_, ?_, ?_, ?_, ?_, ?_, ?_, ?_, ?_, ?_, ?_⟩
    · have : absIds (e :: (xs ++ ys)) = e.1 :: (absIds xs ++ absIds ys) := by
        simp
      rw [this]
      exact hlink
    · exact hidsperm.nodup_iff.1 hwf.idsNodup
    · exact fun i hi => hwf.idsPos i (hidsperm.mem_iff.2 hi)
    · exact fun i hi => hwf.idsLt i (hidsperm.mem_iff.2 hi)
    · exact hwf.nextPos
    · intro e' he'
      have := hwf.data e' (hperm.mem_iff.2 he')
      rw [(hkeyobj e'.1).1, (hkeyobj e'.1).2]
      exact this
    · exact hkeysperm.nodup_iff.1 hwf.keysNodup
    · exact hwf.dict.trans (hperm.map _)
    · rw [(hkeyobj 0).1]
      exact hwf.anchorKey
    · rw [← hperm.length_eq]
      exact hwf.capLe
    · exact hwf.cap2
  · rfl
  · intro j
    constructor
    · simp [LRUCache._link_item_as_top, hh2]
    · simp [LRUCache._link_item_as_top, hh2]

/-- Specification of `_remove_item` on a well-formed state whose entry for
the requested key is `e`: it pops the key from the dictionary, splices `e`'s
link out of the ring, and returns that link's id. -/
theorem _remove_item_spec (c : LRUCache K V) (xs ys : Abs K V)
    (e : Nat × K × V) (hwf : WF c (xs ++ e :: ys)) :
    ∃ c', c._remove_item (some e.2.1) = some (e.1, c') ∧
      WF c' (xs ++ ys) ∧
      c'._ldict = dictPop c._ldict e.2.1 ∧ c'._size = c._size ∧
      c'.nextId = c.nextId ∧
      ∀ j : Nat, (c'.heap j).key = (c.heap j).key ∧
        (c'.heap j).obj = (c.heap j).obj := by
  have hd : dictGet c._ldict e.2.1 = some e.1 := hwf.dictGet_present
  have hsub : List.Sublist (xs ++ ys) (xs ++ e :: ys) :=
    (List.sublist_cons_self e ys).append_left xs
  have hsubids : List.Sublist (absIds (xs ++ ys)) (absIds (xs ++ e :: ys)) := by
    simpa [absIds] using (hsub.map fun e => e.1)
  have hsubkeys :
      List.Sublist (absKeys (xs ++ ys)) (absKeys (xs ++ e :: ys)) := by
    simpa [absKeys] using (hsub.map fun e => e.2.1)
  have hringmid : seg c.heap 0 (absIds xs ++ e.1 :: absIds ys) 0 := by
    have := hwf.ring
    simpa using this
  have h0mid : 0 ∉ absIds xs ++ e.1 :: absIds ys := by
    intro hmem
    have : (0 : Nat) ∈ absIds (xs ++ e :: ys) := by simpa using hmem
    exact hwf.idsPos 0 this rfl
  have hndmid : (absIds xs ++ e.1 :: absIds ys).Nodup := by
    have := hwf.idsNodup
    simpa using this
  have hunlink := ring_unlink c.heap (absIds xs) (absIds ys) e.1
    hringmid h0mid hndmid
  refine ⟨{ c with
      heap := setLeft (setRight c.heap (c.heap e.1).left (c.heap e.1).right)
        (c.heap e.1).right (c.heap e.1).left,
      _ldict := dictPop c._ldict e.2.1 }, ?_, ?_, rfl, rfl, rfl,
    fun j => ⟨by simp, by simp⟩⟩
  · rw [LRUCache._remove_item, hd]
  · refine ⟨?_, ?_, ?_, ?_, ?_, ?_, ?_, ?_, ?_, ?_, ?_⟩
    · show seg (setLeft _ _ _) 0 (absIds (xs ++ ys)) 0
      simpa using hunlink
    · exact hsubids.nodup hwf.idsNodup
    · exact fun i hi => hwf.idsPos i (hsubids.mem hi)
    · exact fun i hi => hwf.idsLt i (hsubids.mem hi)
    · exact hwf.nextPos
    · intro e' he'
      have := hwf.data e' (hsub.mem he')
      simpa using this
    · exact hsubkeys.nodup hwf.keysNodup
    · show (dictPop c._ldict e.2.1).Perm (absDict (xs ++ ys))
      have h1 : (dictPop c._ldict e.2.1).Perm
          (dictPop (absDict (xs ++ e :: ys)) e.2.1) :=
        hwf.dict.filter _
      rw [dictPop_absDict xs ys e hwf.keysNodup] at h1
      exact h1
    · show (setLeft _ _ _ 0).key = none
      simpa using hwf.anchorKey
    · calc (xs ++ ys).length ≤ (xs ++ e :: ys).length := hsub.length_le
        _ ≤ c._size := hwf.capLe
    · exact hwf.cap2

/-- The common tail of `__setitem__`'s two new-key paths: write `obj` and
`key` into a link object off the ring, then link it as the new top. -/
theorem install_spec (c : LRUCache K V) (ids : List Nat) (i : Nat) (k : K)
    (v : V) (hseg : seg c.heap 0 ids 0) (hnd : ids.Nodup) (h0 : 0 ∉ ids)
    (hi : i ∉ ids) (hi0 : i ≠ 0) :
    seg ((LRUCache._link_item_as_top
        { c with heap := setKey (setObj c.heap i (some v)) i (some k) }
        i).heap) 0 (i :: ids) 0 ∧
    ((LRUCache._link_item_as_top
        { c with heap := setKey (setObj c.heap i (some v)) i (some k) }
        i).heap i).key = some k ∧
    ((LRUCache._link_item_as_top
        { c with heap := setKey (setObj c.heap i (some v)) i (some k) }
        i).heap i).obj = some v ∧
    (∀ j, j ≠ i →
      ((LRUCache._link_item_as_top
          { c with heap := setKey (setObj c.heap i (some v)) i (some k) }
          i).heap j).key = (c.heap j).key ∧
      ((LRUCache._link_item_as_top
          { c with heap := setKey (setObj c.heap i (some v)) i (some k) }
          i).heap j).obj = (c.heap j).obj) := by
  have hseg2 : seg (setKey (setObj c.heap i (some v)) i (some k)) 0 ids 0 :=
    seg_setKey _ _ _ _ _ _ (seg_setObj _ _ _ _ _ _ hseg)
  refine ⟨ring_link_top _ ids i hseg2 hnd h0 hi hi0, ?_, ?_, fun j hj => ⟨?_, ?_⟩⟩
  · simp [LRUCache._link_item_as_top]
  · simp [LRUCache._link_item_as_top]
  · simp [LRUCache._link_item_as_top, setKey_key_ne _ _ _ _ hj,
      setObj_key]
  · simp [LRUCache._link_item_as_top, setKey_obj,
      setObj_obj_ne _ _ _ _ hj]

/-- Specification of `__setitem__` when the key is already present (entry
`e`): the stored object is replaced in place (same link id) and the entry
moves to the most-recently-used position; the dictionary, the capacity and
the allocator are untouched. -/
theorem __setitem___present (c : LRUCache K V) (xs ys : Abs K V)
    (e : Nat × K × V) (v : V) (hwf : WF c (xs ++ e :: ys)) :
    ∃ c', c.__setitem__ e.2.1 v = some c' ∧
      WF c' ((e.1, e.2.1, v) :: (xs ++ ys)) ∧
      c'._ldict = c._ldict ∧ c'._size = c._size ∧ c'.nextId = c.nextId := by
  have hd : dictGet c._ldict e.2.1 = some e.1 := hwf.dictGet_present
  obtain ⟨c1, hmv, hwf1, hld, hsz, hnx, hko⟩ := _move_to_top_spec c xs ys e hwf
  refine ⟨{ c1 with heap := setObj c1.heap e.1 (some v) }, ?_, ?_, hld, hsz,
    hnx⟩
  · rw [LRUCache.__setitem__, hd]
    simp only [Option.isSome_some, if_true, hmv]
    rfl
  · have hids : absIds ((e.1, e.2.1, v) :: (xs ++ ys))
        = absIds (e :: (xs ++ ys)) := by simp
    have hkeys : absKeys ((e.1, e.2.1, v) :: (xs ++ ys))
        = absKeys (e :: (xs ++ ys)) := by simp
    have hdict : absDict ((e.1, e.2.1, v) :: (xs ++ ys))
        = absDict (e :: (xs ++ ys)) := by simp
    have hne1 : e.1 ∉ absIds (xs ++ ys) :=
      (List.nodup_cons.1 (by simpa using hwf1.idsNodup)).1
    refine ⟨?_, ?_, ?_, ?_, ?_, ?_, ?_, ?_, ?_, ?_, ?_⟩
    · rw [hids]
      exact seg_setObj _ _ _ _ _ _ hwf1.ring
    · rw [hids]; exact hwf1.idsNodup
    · rw [hids]; exact hwf1.idsPos
    · rw [hids]; exact hwf1.idsLt
    · exact hwf1.nextPos
    · intro e' he'
      rcases List.mem_cons.1 he' with he' | he'
      · subst he'
        refine ⟨?_, by simp⟩
        show (setObj c1.heap e.1 (some v) e.1).key = some e.2.1
        rw [setObj_key]
        exact (hwf1.data e (List.mem_cons_self _ _)).1
      · have hne : e'.1 ≠ e.1 := by
          intro hcon
          exact hne1 (hcon ▸ List.mem_map.2 ⟨e', he', rfl⟩)
        have := hwf1.data e' (List.mem_cons_of_mem _ he')
        refine ⟨?_, ?_⟩
        · show (setObj c1.heap e.1 (some v) e'.1).key = some e'.2.1
          rw [setObj_key]
          exact this.1
        · show (setObj c1.heap e.1 (some v) e'.1).obj = some e'.2.2
          rw [setObj_obj_ne _ _ _ _ hne]
          exact this.2
    · rw [hkeys]; exact hwf1.keysNodup
    · rw [hdict]; exact hwf1.dict
    · show (setObj c1.heap e.1 (some v) 0).key = none
      rw [setObj_key]
      exact hwf1.anchorKey
    · simpa using hwf1.capLe
    · exact hwf1.cap2

/-- Specification of `__setitem__` for a new key when there is room: a
fresh link object (id `nextId`) is allocated, filled and linked as the new
most-recently-used entry. -/
theorem __setitem___fresh (c : LRUCache K V) (abs : Abs K V) (k : K) (v : V)
    (hwf : WF c abs) (hk : k ∉ absKeys abs) (hlen : abs.length < c._size) :
    ∃ c', c.__setitem__ k v = some c' ∧
      WF c' ((c.nextId, k, v) :: abs) ∧
      c'._ldict = (k, c.nextId) :: c._ldict ∧ c'._size = c._size ∧
      c'.nextId = c.nextId + 1 := by
  have hd : dictGet c._ldict k = none := hwf.dictGet_absent hk
  have hlt : ¬ c.__len__ ≥ c._size := by
    rw [hwf.len_eq]
    omega
  have hi : c.nextId ∉ absIds abs := fun hmem =>
    absurd (hwf.idsLt _ hmem) (by omega)
  have hi0 : c.nextId ≠ 0 := by
    have := hwf.nextPos
    omega
  have h0 : 0 ∉ absIds abs := fun hmem => hwf.idsPos 0 hmem rfl
  obtain ⟨hseg2, hmk, hmo, hother⟩ := install_spec
    { c with nextId := c.nextId + 1 } (absIds abs) c.nextId k v
    hwf.ring hwf.idsNodup h0 hi hi0
  set h2 : Heap K V :=
    setKey (setObj c.heap c.nextId (some v)) c.nextId (some k) with hh2
  refine ⟨{ (LRUCache._link_item_as_top { c with heap := h2, nextId := c.nextId + 1 } c.nextId) with _ldict := (k, c.nextId) :: c._ldict },
    ?_, ?_, rfl, rfl, rfl⟩
  · rw [LRUCache.__setitem__, hd]
    simp only [Option.isSome_none, Bool.false_eq_true, if_false, hlt]
    rfl
  · refine ⟨?_, ?_, ?_, ?_, ?_, ?_, ?_, ?_, ?_, ?_, ?_⟩
    · have habs : absIds ((c.nextId, k, v) :: abs)
          = c.nextId :: absIds abs := by simp
      rw [habs]
      exact hseg2
    · simp only [absIds_cons, List.nodup_cons]
      exact ⟨hi, hwf.idsNodup⟩
    · simp only [absIds_cons, List.mem_cons]
      rintro i (rfl | hmem)
      · exact hi0
      · exact hwf.idsPos i hmem
    · simp only [absIds_cons, List.mem_cons]
      rintro i (rfl | hmem)
      · show c.nextId < c.nextId + 1
        omega
      · show i < c.nextId + 1
        have := hwf.idsLt i hmem
        omega
    · show 1 ≤ c.nextId + 1
      omega
    · intro e' he'
      rcases List.mem_cons.1 he' with he' | he'
      · subst he'
        exact ⟨hmk, hmo⟩
      · have hne : e'.1 ≠ c.nextId := fun hcon =>
          hi (hcon ▸ List.mem_map.2 ⟨e', he', rfl⟩)
        have hold := hwf.data e' he'
        have := hother e'.1 hne
        exact ⟨this.1.trans hold.1, this.2.trans hold.2⟩
    · simp only [absKeys_cons, List.nodup_cons]
      exact ⟨hk, hwf.keysNodup⟩
    · simp only [absDict_cons]
      exact hwf.dict.cons _
    · have := hother 0 (Ne.symm hi0)
      exact this.1.trans hwf.anchorKey
    · show abs.length + 1 ≤ c._size
      omega
    · exact hwf.cap2

/-- Specification of `__setitem__` for a new key when the cache is full:
the least-recently-used entry (the last of `abs`, adjacent to the anchor on
its left) is popped from the dictionary, its link object is reused for the
new key/object and relinked as the most-recently-used entry; nothing else
is removed and nothing is reported. -/
theorem __setitem___evict (c : LRUCache K V) (front : Abs K V)
    (e : Nat × K × V) (k : K) (v : V) (hwf : WF c (front ++ [e]))
    (hk : k ∉ absKeys (front ++ [e])) (hfull : c._size ≤ c.__len__) :
    ∃ c', c.__setitem__ k v = some c' ∧
      WF c' ((e.1, k, v) :: front) ∧
      c'._ldict = (k, e.1) :: dictPop c._ldict e.2.1 ∧
      c'._size = c._size ∧ c'.nextId = c.nextId ∧
      (c.heap 0).left = e.1 := by
  have hd : dictGet c._ldict k = none := hwf.dictGet_absent hk
  have hge : c.__len__ ≥ c._size := hfull
  have hanchorleft : (c.heap 0).left = e.1 := by
    have := seg_last_left _ _ _ _ hwf.ring
    rw [this]
    simp [List.getLastD_concat]
  have hlrukey : (c.heap (c.heap 0).left).key = some e.2.1 := by
    rw [hanchorleft]
    exact (hwf.data e (List.mem_append_right _ (List.mem_cons_self _ _))).1
  obtain ⟨c1, hrm, hwf1, hld1, hsz1, hnx1, hko1⟩ :=
    _remove_item_spec c front [] e (by simpa using hwf)
  have hfront : front ++ [] = front := List.append_nil front
  rw [hfront] at hwf1
  have h0f : 0 ∉ absIds front := fun hmem => hwf1.idsPos 0 hmem rfl
  have hif : e.1 ∉ absIds front := by
    intro hmem
    have := hwf.idsNodup
    simp only [absIds_append, absIds_cons, absIds_nil] at this
    rw [List.nodup_append] at this
    exact this.2.2 hmem (by simp)
  have hi0 : e.1 ≠ 0 := hwf.idsPos e.1 (by simp)
  obtain ⟨hseg2, hmk, hmo, hother⟩ := install_spec c1 (absIds front) e.1 k v
    hwf1.ring hwf1.idsNodup h0f hif hi0
  refine ⟨{ (LRUCache._link_item_as_top
      { c1 with heap := setKey (setObj c1.heap e.1 (some v)) e.1 (some k) }
      e.1) with _ldict := (k, e.1) :: c1._ldict }, ?_, ?_, ?_, hsz1, hnx1,
    hanchorleft⟩
  · rw [LRUCache.__setitem__, hd]
    simp only [Option.isSome_none, Bool.false_eq_true, if_false, hge,
      if_true, hlrukey, hrm]
    rfl
  · refine ⟨?_, ?_, ?_, ?_, ?_, ?_, ?_, ?_, ?_, ?_, ?_⟩
    · have habs : absIds ((e.1, k, v) :: front) = e.1 :: absIds front := by
        simp
      rw [habs]
      exact hseg2
    · simp only [absIds_cons, List.nodup_cons]
      exact ⟨hif, hwf1.idsNodup⟩
    · simp only [absIds_cons, List.mem_cons]
      rintro i (rfl | hmem)
      · exact hi0
      · exact hwf1.idsPos i hmem
    · simp only [absIds_cons, List.mem_cons]
      rintro i (rfl | hmem)
      · show e.1 < c1.nextId
        rw [hnx1]
        exact hwf.idsLt e.1 (by simp)
      · exact hwf1.idsLt i hmem
    · exact hwf1.nextPos
    · intro e' he'
      rcases List.mem_cons.1 he' with he' | he'
      · subst he'
        exact ⟨hmk, hmo⟩
      · have hne : e'.1 ≠ e.1 := fun hcon =>
          hif (hcon ▸ List.mem_map.2 ⟨e', he', rfl⟩)
        have hold := hwf1.data e' he'
        have := hother e'.1 hne
        exact ⟨this.1.trans hold.1, this.2.trans hold.2⟩
    · simp only [absKeys_cons, List.nodup_cons]
      refine ⟨?_, hwf1.keysNodup⟩
      intro hmem
      simp only [absKeys_append] at hk
      exact hk (List.mem_append_left _ hmem)
    · simp only [absDict_cons]
      exact hwf1.dict.cons _
    · have := hother 0 (Ne.symm hi0)
      exact this.1.trans hwf1.anchorKey
    · show front.length + 1 ≤ c1._size
      have hcap : (front ++ [e]).length ≤ c._size := hwf.capLe
      simp only [List.length_append, List.length_cons, List.length_nil]
        at hcap
      omega
    · exact hwf1.cap2
  · show (k, e.1) :: c1._ldict = (k, e.1) :: dictPop c._ldict e.2.1
    rw [hld1]

/-- A key held by some live entry splits the abstract view around that
entry. -/
theorem mem_absKeys_decomp (abs : Abs K V) (k : K) (h : k ∈ absKeys abs) :
    ∃ xs e ys, abs = xs ++ e :: ys ∧ e.2.1 = k := by
  obtain ⟨e, he, hek⟩ := List.mem_map.1 h
  obtain ⟨xs, ys, hsplit⟩ := List.append_of_mem he
  exact ⟨xs, e, ys, hsplit, hek⟩

theorem WF.has_key_iff {c : LRUCache K V} {abs : Abs K V} (hwf : WF c abs)
    (k : K) : c.has_key k = true ↔ k ∈ absKeys abs := by
  rw [LRUCache.has_key]
  constructor
  · intro h
    by_contra hk
    rw [hwf.dictGet_absent hk] at h
    simp at h
  · intro hk
    cases hd : dictGet c._ldict k with
    | some i => simp [hd]
    | none =>
      rw [hwf.dictGet_eq, dictGet_eq_none_iff, absDict_fst] at hd
      exact absurd hk hd

/-- `__getitem__` on an absent key raises before mutating. -/
theorem __getitem___absent (c : LRUCache K V) (abs : Abs K V) (k : K)
    (hwf : WF c abs) (hk : k ∉ absKeys abs) : c.__getitem__ k = none := by
  rw [LRUCache.__getitem__, LRUCache._move_to_top, hwf.dictGet_absent hk]
  rfl

/-- `__getitem__` on a present key returns the stored object and moves the
entry to the most-recently-used position. -/
theorem __getitem___present (c : LRUCache K V) (xs ys : Abs K V)
    (e : Nat × K × V) (hwf : WF c (xs ++ e :: ys)) :
    ∃ c', c.__getitem__ e.2.1 = some (some e.2.2, c') ∧
      WF c' (e :: (xs ++ ys)) ∧
      c'._ldict = c._ldict ∧ c'._size = c._size ∧ c'.nextId = c.nextId := by
  obtain ⟨c', hmv, hwf', hld, hsz, hnx, _⟩ := _move_to_top_spec c xs ys e hwf
  refine ⟨c', ?_, hwf', hld, hsz, hnx⟩
  rw [LRUCache.__getitem__, hmv]
  show some ((c'.heap e.1).obj, c') = some (some e.2.2, c')
  rw [(hwf'.data e (List.mem_cons_self _ _)).2]

/-- `pop` on an absent key raises before mutating. -/
theorem pop_absent (c : LRUCache K V) (abs : Abs K V) (k : K)
    (hwf : WF c abs) (hk : k ∉ absKeys abs) : c.pop k = none := by
  rw [LRUCache.pop, LRUCache._remove_item, hwf.dictGet_absent hk]
  rfl

/-- `pop` on a present key returns the stored object and removes the
entry. -/
theorem pop_present (c : LRUCache K V) (xs ys : Abs K V)
    (e : Nat × K × V) (hwf : WF c (xs ++ e :: ys)) :
    ∃ c', c.pop e.2.1 = some (some e.2.2, c') ∧
      WF c' (xs ++ ys) ∧
      c'._ldict = dictPop c._ldict e.2.1 ∧ c'._size = c._size ∧
      c'.nextId = c.nextId := by
  obtain ⟨c', hrm, hwf', hld, hsz, hnx, hko⟩ := _remove_item_spec c xs ys e hwf
  refine ⟨c', ?_, hwf', hld, hsz, hnx⟩
  rw [LRUCache.pop, hrm]
  show some ((c'.heap e.1).obj, c') = some (some e.2.2, c')
  have hobj : (c'.heap e.1).obj = some e.2.2 := by
    rw [(hko e.1).2]
    exact (hwf.data e (List.mem_append_right _ (List.mem_cons_self _ _))).2
  rw [hobj]

/-- `get` with a default on an absent key returns the default, mutating
nothing. -/
theorem get_absent (c : LRUCache K V) (abs : Abs K V) (k : K)
    (d : Option V) (hwf : WF c abs) (hk : k ∉ absKeys abs) :
    c.get k d = (d, c) := by
  rw [LRUCache.get, LRUCache._move_to_top, hwf.dictGet_absent hk]

/-- `get` with a default on a present key behaves as `__getitem__`. -/
theorem get_present (c : LRUCache K V) (xs ys : Abs K V)
    (e : Nat × K × V) (d : Option V) (hwf : WF c (xs ++ e :: ys)) :
    ∃ c', c.get e.2.1 d = (some e.2.2, c') ∧
      WF c' (e :: (xs ++ ys)) ∧
      c'._ldict = c._ldict ∧ c'._size = c._size ∧ c'.nextId = c.nextId := by
  obtain ⟨c', hmv, hwf', hld, hsz, hnx, _⟩ := _move_to_top_spec c xs ys e hwf
  refine ⟨c', ?_, hwf', hld, hsz, hnx⟩
  rw [LRUCache.get, hmv]
  show ((c'.heap e.1).obj, c') = (some e.2.2, c')
  rw [(hwf'.data e (List.mem_cons_self _ _)).2]

/-- `clean` empties the store and restores the empty ring. -/
theorem clean_spec (c : LRUCache K V) (abs : Abs K V) (hwf : WF c abs) :
    WF c.clean [] ∧ c.clean.__len__ = 0 ∧ c.clean._size = c._size := by
  refine ⟨⟨?_, ?_, ?_, ?_, hwf.nextPos, ?_, ?_, ?_, ?_, ?_, hwf.cap2⟩, rfl,
    rfl⟩
  · exact ⟨by simp [LRUCache.clean], by simp [LRUCache.clean]⟩
  · simp
  · simp
  · simp
  · simp
  · simp
  · exact List.Perm.refl _
  · show ((setRight (setLeft c.heap 0 0) 0 0) 0).key = none
    rw [setRight_key, setLeft_key]
    exact hwf.anchorKey
  · simp

/-- A successful construction yields the well-formed empty state; the
constructor fails exactly on capacities below 2. -/
theorem init_spec (n : Nat) (h : 2 ≤ n) :
    ∃ c0 : LRUCache K V, LRUCache.init n = some c0 ∧ WF c0 [] ∧
      c0._size = n := by
  rw [LRUCache.init, if_neg (by omega)]
  refine ⟨_, rfl, ⟨?_, ?_, ?_, ?_, ?_, ?_, ?_, ?_, ?_, ?_, ?_⟩, rfl⟩
  · exact ⟨rfl, rfl⟩
  · simp
  · simp
  · simp
  · exact Nat.le_refl 1
  · simp
  · simp
  · exact List.Perm.refl _
  · rfl
  · simp
  · exact h

theorem init_none_iff (n : Nat) :
    (LRUCache.init n : Option (LRUCache K V)) = none ↔ n < 2 := by
  rw [LRUCache.init]
  split
  · rename_i h
    simp [h]
  · rename_i h
    simp [h]

/-- Every public call preserves well-formedness (with some new abstract
view) and leaves the fixed capacity unchanged. -/
theorem applyOp_wf (c : LRUCache K V) (op : Op K V) (abs : Abs K V)
    (hwf : WF c abs) :
    ∃ abs', WF (applyOp c op) abs' ∧ (applyOp c op)._size = c._size := by
  cases op with
  | put k v =>
    simp only [applyOp]
    by_cases hk : k ∈ absKeys abs
    · obtain ⟨xs, e, ys, habs, hek⟩ := mem_absKeys_decomp abs k hk
      subst hek
      rw [habs] at hwf
      obtain ⟨c', hset, hwf', _, hsz, _⟩ :=
        __setitem___present c xs ys e v hwf
      rw [hset]
      exact ⟨_, hwf', hsz⟩
    · by_cases hlen : abs.length < c._size
      · obtain ⟨c', hset, hwf', _, hsz, _⟩ :=
          __setitem___fresh c abs k v hwf hk hlen
        rw [hset]
        exact ⟨_, hwf', hsz⟩
      · have hne : abs ≠ [] := by
          intro h0
          rw [h0] at hlen
          simp only [List.length_nil] at hlen
          have := hwf.cap2
          omega
        obtain ⟨front, e, habs⟩ : ∃ front e, abs = front ++ [e] :=
          ⟨abs.dropLast, abs.getLast hne,
            (List.dropLast_append_getLast hne).symm⟩
        rw [habs] at hwf hk hlen
        have hfull : c._size ≤ c.__len__ := by
          rw [hwf.len_eq]
          omega
        obtain ⟨c', hset, hwf', _, hsz, _, _⟩ :=
          __setitem___evict c front e k v hwf hk hfull
        rw [hset]
        exact ⟨_, hwf', hsz⟩
  | get k =>
    simp only [applyOp]
    by_cases hk : k ∈ absKeys abs
    · obtain ⟨xs, e, ys, habs, hek⟩ := mem_absKeys_decomp abs k hk
      subst hek
      rw [habs] at hwf
      obtain ⟨c', hget, hwf', _, hsz, _⟩ := __getitem___present c xs ys e hwf
      rw [hget]
      exact ⟨_, hwf', hsz⟩
    · rw [__getitem___absent c abs k hwf hk]
      exact ⟨abs, hwf, rfl⟩
  | getWithDefault k d =>
    simp only [applyOp]
    by_cases hk : k ∈ absKeys abs
    · obtain ⟨xs, e, ys, habs, hek⟩ := mem_absKeys_decomp abs k hk
      subst hek
      rw [habs] at hwf
      obtain ⟨c', hget, hwf', _, hsz, _⟩ := get_present c xs ys e d hwf
      rw [hget]
      exact ⟨_, hwf', hsz⟩
    · rw [get_absent c abs k d hwf hk]
      exact ⟨abs, hwf, rfl⟩
  | pop k =>
    simp only [applyOp]
    by_cases hk : k ∈ absKeys abs
    · obtain ⟨xs, e, ys, habs, hek⟩ := mem_absKeys_decomp abs k hk
      subst hek
      rw [habs] at hwf
      obtain ⟨c', hpop, hwf', _, hsz, _⟩ := pop_present c xs ys e hwf
      rw [hpop]
      exact ⟨_, hwf', hsz⟩
    · rw [pop_absent c abs k hwf hk]
      exact ⟨abs, hwf, rfl⟩
  | clean =>
    exact ⟨[], (clean_spec c abs hwf).1, rfl⟩

/-- Well-formedness along any sequence of public calls. -/
theorem run_wf (c : LRUCache K V) (ops : List (Op K V)) (abs : Abs K V)
    (hwf : WF c abs) :
    ∃ abs', WF (run c ops) abs' ∧ (run c ops)._size = c._size := by
  induction ops generalizing c abs with
  | nil => exact ⟨abs, hwf, rfl⟩
  | cons op ops ih =>
    obtain ⟨abs1, hwf1, hsz1⟩ := applyOp_wf c op abs hwf
    obtain ⟨abs', hwf', hsz'⟩ := ih (applyOp c op) abs1 hwf1
    refine ⟨abs', ?_, ?_⟩
    · show WF (run (applyOp c op) ops) abs'
      exact hwf'
    · show (run (applyOp c op) ops)._size = c._size
      rw [hsz', hsz1]

/-- Walking `left` pointers from the last live entry traverses the ring in
least-recently-used-first order: the `__repr__` loop body, related to a
segment.  `g` is the fuel left over when the walk reaches `p`. -/
theorem reprAux_seg (H : Heap K V) (abs : Abs K V) (p : Nat) :
    ∀ (q g : Nat), seg H p (absIds abs) q →
    (∀ e ∈ abs, (H e.1).key = some e.2.1 ∧ (H e.1).obj = some e.2.2) →
    reprAux H (abs.length + g) ((absIds abs).getLastD p)
      = (abs.reverse.map fun e => (e.2.1, some e.2.2)) ++ reprAux H g p := by
  induction abs using List.reverseRecOn with
  | nil =>
    intro q g _ _
    simp
  | append_singleton front e ih =>
    intro q g hseg hdata
    have hids : absIds (front ++ [e]) = absIds front ++ e.1 :: [] := by simp
    rw [hids] at hseg
    obtain ⟨hseg1, hseg2⟩ := (seg_append H p q e.1 (absIds front) []).1 hseg
    have hkey : (H e.1).key = some e.2.1 :=
      (hdata e (List.mem_append_right _ (List.mem_cons_self _ _))).1
    have hobj : (H e.1).obj = some e.2.2 :=
      (hdata e (List.mem_append_right _ (List.mem_cons_self _ _))).2
    have hleft : (H e.1).left = (absIds front).getLastD p :=
      seg_last_left H p e.1 (absIds front) hseg1
    have hlen : (front ++ [e]).length + g = (front.length + g) + 1 := by
      simp
      omega
    have hlast : (absIds (front ++ [e])).getLastD p = e.1 := by
      simp [List.getLastD_concat]
    rw [hlen, hlast, reprAux, hkey, hobj, hleft,
      ih e.1 g hseg1 (fun e' he' => hdata e' (List.mem_append_left _ he'))]
    simp

/-- `__repr__` (`to_ordered_list`) of a well-formed state lists the live
entries least-recently-used first. -/
theorem __repr___of_WF (c : LRUCache K V) (abs : Abs K V) (hwf : WF c abs) :
    c.__repr__ = abs.reverse.map fun e => (e.2.1, some e.2.2) := by
  rw [LRUCache.__repr__, hwf.len_eq,
    seg_last_left _ _ _ _ hwf.ring,
    reprAux_seg c.heap abs 0 0 1 hwf.ring hwf.data]
  have h2 : reprAux c.heap 1 0 = [] := by
    rw [reprAux, hwf.anchorKey]
  rw [h2, List.append_nil]

/-- Walking `right` pointers from the anchor's right neighbour with fuel
one more than the ring size closes back at the anchor and visits exactly
the ring. -/
theorem walkRight_of_seg (H : Heap K V) (ids : List Nat) (p : Nat)
    (hseg : seg H p ids 0) (h0 : 0 ∉ ids) :
    walkRight H (ids.length + 1) ((H p).right) = some ids := by
  induction ids generalizing p with
  | nil =>
    rw [hseg.1]
    rfl
  | cons i is ih =>
    obtain ⟨h1, h2, h3⟩ := hseg
    have hi0 : i ≠ 0 := fun h => h0 (h ▸ List.mem_cons_self _ _)
    rw [h1, List.length_cons, walkRight, if_neg hi0,
      ih i h3 (fun h => h0 (List.mem_cons_of_mem _ h))]
    rfl

/-- The keys carried by the ring's links are exactly the entry keys. -/
theorem ids_keys_eq (c : LRUCache K V) (abs : Abs K V) (hwf : WF c abs) :
    (absIds abs).map (fun i => (c.heap i).key) = (absKeys abs).map some := by
  rw [absIds, absKeys, List.map_map, List.map_map]
  exact List.map_congr_left fun e he => (hwf.data e he).1

/-- `__setitem__` never raises on a well-formed state: one of its three
paths applies. -/
theorem __setitem___total (c : LRUCache K V) (abs : Abs K V) (k : K) (v : V)
    (hwf : WF c abs) :
    ∃ c' abs', c.__setitem__ k v = some c' ∧ WF c' abs' ∧
      c'._size = c._size := by
  by_cases hk : k ∈ absKeys abs
  · obtain ⟨xs, e, ys, habs, hek⟩ := mem_absKeys_decomp abs k hk
    subst hek
    rw [habs] at hwf
    obtain ⟨c', hset, hwf', _, hsz, _⟩ := __setitem___present c xs ys e v hwf
    exact ⟨c', _, hset, hwf', hsz⟩
  · by_cases hlen : abs.length < c._size
    · obtain ⟨c', hset, hwf', _, hsz, _⟩ :=
        __setitem___fresh c abs k v hwf hk hlen
      exact ⟨c', _, hset, hwf', hsz⟩
    · have hne : abs ≠ [] := by
        intro h0
        rw [h0] at hlen
        simp only [List.length_nil] at hlen
        have := hwf.cap2
        omega
      obtain ⟨front, e, habs⟩ : ∃ front e, abs = front ++ [e] :=
        ⟨abs.dropLast, abs.getLast hne,
          (List.dropLast_append_getLast hne).symm⟩
      rw [habs] at hwf hk hlen
      have hfull : c._size ≤ c.__len__ := by
        rw [hwf.len_eq]
        omega
      obtain ⟨c', hset, hwf', _, hsz, _, _⟩ :=
        __setitem___evict c front e k v hwf hk hfull
      exact ⟨c', _, hset, hwf', hsz⟩

namespace LRUTimeCache

/-- `get` on an absent key: the `KeyError` is caught, counted as a miss and
re-raised, with the store untouched. -/
theorem get_absent_spec (t : LRUTimeCache K V) (abs : Abs K (Int × V))
    (k : K) (now : Int) (hwf : WF t._lru_cache abs)
    (hk : k ∉ absKeys abs) :
    t.get k now = some (none, { t with _misses := t._misses + 1 }) := by
  rw [LRUTimeCache.get, __getitem___absent t._lru_cache abs k hwf hk]

/-- `get` on a present entry whose stored expiry is strictly before `now`:
the entry is deleted from the store, a miss is counted and the call fails;
the expired entry becomes observably absent. -/
theorem get_expired_spec (t : LRUTimeCache K V) (xs ys : Abs K (Int × V))
    (i : Nat) (k : K) (ex : Int) (v : V) (now : Int)
    (hwf : WF t._lru_cache (xs ++ (i, k, (ex, v)) :: ys)) (hexp : ex < now) :
    ∃ t', t.get k now = some (none, t') ∧
      WF t'._lru_cache (xs ++ ys) ∧
      t'._misses = t._misses + 1 ∧ t'._hits = t._hits ∧
      t'._lru_cache.has_key k = false ∧
      t'._lru_cache.__len__ + 1 = t._lru_cache.__len__ ∧
      t'._ttl = t._ttl ∧ t'._lru_cache._size = t._lru_cache._size := by
  obtain ⟨c1, hget, hwf1, hld1, hsz1, hnx1⟩ :=
    __getitem___present t._lru_cache xs ys (i, k, (ex, v)) hwf
  obtain ⟨c2, hrm, hwf2, hld2, hsz2, hnx2, hko2⟩ :=
    _remove_item_spec c1 [] (xs ++ ys) (i, k, (ex, v)) (by simpa using hwf1)
  have hwf2' : WF c2 (xs ++ ys) := by simpa using hwf2
  have hknotin : k ∉ absKeys (xs ++ ys) := by
    have := hwf1.keysNodup
    simp only [absKeys_cons, List.nodup_cons] at this
    exact this.1
  refine ⟨{ t with _lru_cache := c2, _misses := t._misses + 1 }, ?_, hwf2',
    rfl, rfl, ?_, ?_, rfl, hsz2.trans hsz1⟩
  · rw [LRUTimeCache.get, hget]
    show (if ex < now then _ else _) = _
    rw [if_pos hexp, LRUCache.__delitem__, hrm]
  · rw [Bool.eq_false_iff]
    intro hhk
    exact hknotin ((hwf2'.has_key_iff k).1 hhk)
  · show c2.__len__ + 1 = t._lru_cache.__len__
    rw [hwf2'.len_eq, hwf.len_eq]
    simp
    omega

/-- `get` on a present entry whose stored expiry is not yet past: a hit is
counted, the entry is touched (moved to most-recently-used) and the
unwrapped object is returned. -/
theorem get_hit_spec (t : LRUTimeCache K V) (xs ys : Abs K (Int × V))
    (i : Nat) (k : K) (ex : Int) (v : V) (now : Int)
    (hwf : WF t._lru_cache (xs ++ (i, k, (ex, v)) :: ys))
    (hval : ¬ ex < now) :
    ∃ t', t.get k now = some (some v, t') ∧
      WF t'._lru_cache ((i, k, (ex, v)) :: (xs ++ ys)) ∧
      t'._hits = t._hits + 1 ∧ t'._misses = t._misses ∧
      t'._lru_cache.__len__ = t._lru_cache.__len__ ∧
      t'._ttl = t._ttl ∧ t'._lru_cache._size = t._lru_cache._size := by
  obtain ⟨c1, hget, hwf1, hld1, hsz1, hnx1⟩ :=
    __getitem___present t._lru_cache xs ys (i, k, (ex, v)) hwf
  refine ⟨{ t with _lru_cache := c1, _hits := t._hits + 1 }, ?_, hwf1, rfl,
    rfl, ?_, rfl, hsz1⟩
  · rw [LRUTimeCache.get, hget]
    show (if ex < now then _ else _) = _
    rw [if_neg hval]
  · show c1.__len__ = t._lru_cache.__len__
    rw [hwf1.len_eq, hwf.len_eq]
    simp
    omega

end LRUTimeCache

/-- One `LRUTimeCache` call preserves well-formedness of the wrapped store
and has the declared effect on `hits + misses`: a `put` leaves the sum
unchanged, a `get` increments it by exactly one (hit, miss and expired-miss
alike), and a `clean` resets it to zero. -/
theorem applyTOp_stats (t : LRUTimeCache K V) (op : TOp K V)
    (abs : Abs K (Int × V)) (hwf : WF t._lru_cache abs) :
    (∃ abs', WF (applyTOp t op)._lru_cache abs') ∧
    (applyTOp t op)._hits + (applyTOp t op)._misses =
      (match op with
        | TOp.put _ _ _ => t._hits + t._misses
        | TOp.get _ _ => t._hits + t._misses + 1
        | TOp.clean => 0) := by
  cases op with
  | put k v now =>
    simp only [applyTOp, LRUTimeCache.put]
    obtain ⟨c', abs', hset, hwf', _⟩ :=
      __setitem___total t._lru_cache abs k (now + t._ttl, v) hwf
    rw [hset]
    exact ⟨⟨abs', hwf'⟩, rfl⟩
  | get k now =>
    simp only [applyTOp]
    by_cases hk : k ∈ absKeys abs
    · obtain ⟨xs, e, ys, habs, hek⟩ := mem_absKeys_decomp abs k hk
      obtain ⟨i, k', ex, v⟩ := e
      cases hek
      rw [habs] at hwf
      by_cases hexp : ex < now
      · obtain ⟨t', hgt, hwf', hm, hh, _⟩ :=
          LRUTimeCache.get_expired_spec t xs ys i k' ex v now hwf hexp
        rw [hgt]
        refine ⟨⟨_, hwf'⟩, ?_⟩
        show t'._hits + t'._misses = t._hits + t._misses + 1
        omega
      · obtain ⟨t', hgt, hwf', hh, hm, _⟩ :=
          LRUTimeCache.get_hit_spec t xs ys i k' ex v now hwf hexp
        rw [hgt]
        refine ⟨⟨_, hwf'⟩, ?_⟩
        show t'._hits + t'._misses = t._hits + t._misses + 1
        omega
    · rw [LRUTimeCache.get_absent_spec t abs k now hwf hk]
      exact ⟨⟨abs, hwf⟩, rfl⟩
  | clean =>
    refine ⟨⟨[], ?_⟩, rfl⟩
    exact (clean_spec t._lru_cache abs hwf).1

/-- Along any sequence of `LRUTimeCache` calls from a well-formed state,
`hits + misses` counts exactly the `get` calls since the last `clean`. -/
theorem runT_stats (ops : List (TOp K V)) :
    ∀ (t : LRUTimeCache K V) (abs : Abs K (Int × V)),
    WF t._lru_cache abs →
    (∃ abs', WF (runT t ops)._lru_cache abs') ∧
    (runT t ops)._hits + (runT t ops)._misses
      = getCountFrom (t._hits + t._misses) ops := by
  induction ops with
  | nil =>
    intro t abs hwf
    exact ⟨⟨abs, hwf⟩, rfl⟩
  | cons op ops ih =>
    intro t abs hwf
    obtain ⟨⟨abs1, hwf1⟩, hsum⟩ := applyTOp_stats t op abs hwf
    obtain ⟨hex, hsum'⟩ := ih (applyTOp t op) abs1 hwf1
    refine ⟨hex, ?_⟩
    show (runT (applyTOp t op) ops)._hits + (runT (applyTOp t op) ops)._misses
      = getCountFrom (t._hits + t._misses) (op :: ops)
    rw [hsum', hsum]
    cases op <;> rfl

/-- A state freshly constructed with `LRUCache.init` is well-formed. -/
theorem init_wf (size : Nat) (c0 : LRUCache K V)
    (h : LRUCache.init size = some c0) : WF c0 [] ∧ c0._size = size := by
  have h2 : ¬ size < 2 := by
    intro hlt
    rw [LRUCache.init, if_pos hlt] at h
    exact Option.noConfusion h
  obtain ⟨c0', heq, hwf0, hsz⟩ := init_spec (K := K) (V := V) size (by omega)
  rw [heq] at h
  cases Option.some.inj h
  exact ⟨hwf0, hsz⟩

/-- Any state reachable from a successful construction is well-formed and
keeps the construction-time capacity. -/
theorem reachable_wf (size : Nat) (c0 : LRUCache K V) (ops : List (Op K V))
    (h : LRUCache.init size = some c0) :
    ∃ abs, WF (run c0 ops) abs ∧ (run c0 ops)._size = size := by
  obtain ⟨hwf0, hsz⟩ := init_wf size c0 h
  obtain ⟨abs, hwf, hsz'⟩ := run_wf c0 ops [] hwf0
  exact ⟨abs, hwf, hsz'.trans hsz⟩

/-- A freshly constructed `LRUTimeCache` wraps a well-formed store and has
both counters zero. -/
theorem initT_wf (size : Nat) (ttl : Int) (t0 : LRUTimeCache K V)
    (h : LRUTimeCache.init size ttl = some t0) :
    WF t0._lru_cache [] ∧ t0._hits = 0 ∧ t0._misses = 0 ∧ t0._ttl = ttl ∧
      t0._lru_cache._size = size := by
  rw [LRUTimeCache.init] at h
  cases hc : (LRUCache.init size : Option (LRUCache K (Int × V))) with
  | none =>
    rw [hc] at h
    exact Option.noConfusion h
  | some c0 =>
    rw [hc] at h
    cases Option.some.inj h
    obtain ⟨hwf0, hsz⟩ := init_wf size c0 hc
    exact ⟨hwf0, rfl, rfl, rfl, hsz⟩

@[simp]
theorem absKV_nil : absKV ([] : Abs K V) = [] := rfl

@[simp]
theorem absKV_cons (e : Nat × K × V) (abs : Abs K V) :
    absKV (e :: abs) = (e.2.1, e.2.2) :: absKV abs := rfl

@[simp]
theorem absKV_append (a b : Abs K V) :
    absKV (a ++ b) = absKV a ++ absKV b := List.map_append _ a b

@[simp]
theorem absKV_length (abs : Abs K V) : (absKV abs).length = abs.length :=
  List.length_map _ _

theorem absKV_fst (abs : Abs K V) :
    (absKV abs).map Prod.fst = absKeys abs := by
  rw [absKV, absKeys, List.map_map]
  rfl

/-- `__repr__` through the key/value view. -/
theorem repr_eq_absKV (c : LRUCache K V) (abs : Abs K V) (hwf : WF c abs) :
    c.__repr__ = (absKV abs).reverse.map fun q => (q.1, some q.2) := by
  rw [__repr___of_WF c abs hwf, absKV, List.map_reverse, List.map_reverse,
    List.map_map]
  rfl

/-- Inserting a list of fresh, pairwise distinct keys (fitting within the
remaining capacity) prepends them, most recent first, to the abstract
view. -/
theorem putAll_fresh (ps : List (K × V)) :
    ∀ (c : LRUCache K V) (abs : Abs K V), WF c abs →
    (∀ k ∈ ps.map Prod.fst, k ∉ absKeys abs) →
    (ps.map Prod.fst).Nodup →
    abs.length + ps.length ≤ c._size →
    ∃ abs', WF (run c (ps.map fun q => Op.put q.1 q.2)) abs' ∧
      absKV abs' = ps.reverse ++ absKV abs := by
  induction ps with
  | nil =>
    intro c abs hwf _ _ _
    exact ⟨abs, hwf, by simp⟩
  | cons q ps ih =>
    intro c abs hwf hfresh hnd hlen
    have hq : q.1 ∉ absKeys abs :=
      hfresh q.1 (List.mem_map.2 ⟨q, List.mem_cons_self _ _, rfl⟩)
    have hroom : abs.length < c._size := by
      simp only [List.length_cons] at hlen
      omega
    obtain ⟨c1, hset, hwf1, hld1, hsz1, hnx1⟩ :=
      __setitem___fresh c abs q.1 q.2 hwf hq hroom
    have hstep : run c ((q :: ps).map fun r => Op.put r.1 r.2)
        = run (applyOp c (Op.put q.1 q.2)) (ps.map fun r => Op.put r.1 r.2) :=
      rfl
    have happ : applyOp c (Op.put q.1 q.2) = c1 := by
      simp only [applyOp, hset, Option.getD_some]
    obtain ⟨abs', hwf', hkv⟩ := ih c1 ((c.nextId, q.1, q.2) :: abs) hwf1
      (by
        intro k hk hmem
        simp only [absKeys_cons, List.mem_cons] at hmem
        rcases hmem with rfl | hmem
        · simp only [List.map_cons, List.nodup_cons] at hnd
          exact hnd.1 hk
        · exact hfresh k (List.mem_cons_of_mem _ hk) hmem)
      (by
        simp only [List.map_cons, List.nodup_cons] at hnd
        exact hnd.2)
      (by
        simp only [List.length_cons, hsz1]
        simp only [List.length_cons] at hlen
        omega)
    refine ⟨abs', ?_, ?_⟩
    · rw [hstep, happ]
      exact hwf'
    · rw [hkv]
      simp

/-- C1: when `put` is called with a key not present on a full Recency
Store, exactly the current least-recently-used entry — the one adjacent to
the anchor on the LRU side (`anchor.left`, the last entry `e` of the
abstract view) — is removed from the hashmap, its link object (`e.1`) is
reused for the new key/value, and the new entry is linked at the
most-recently-used position (`anchor.right`); every other key stays, the
entry count stays at capacity, and the call returns nothing (no eviction
report).  Concretely, with capacity 3 and puts of keys 1,2,3,4 in order,
the live set is ordered `[2,3,4]` oldest-first and `get(1)` fails. -/
theorem C1_eviction (c : LRUCache K V) (front : Abs K V) (e : Nat × K × V)
    (k : K) (v : V) (hwf : WF c (front ++ [e]))
    (hk : k ∉ absKeys (front ++ [e])) (hfull : c.__len__ = c._size) :
    (∃ c', c.__setitem__ k v = some c' ∧
      (c.heap 0).left = e.1 ∧
      WF c' ((e.1, k, v) :: front) ∧
      (c'.heap 0).right = e.1 ∧
      c'.__len__ = c._size ∧
      (∀ k', c'.has_key k' = true ↔
        (k' = k ∨ (c.has_key k' = true ∧ k' ≠ e.2.1)))) ∧
    ((LRUCache.init 3 : Option (LRUCache Nat Nat)).map fun c0 =>
      (LRUCache.__repr__
        (run c0 [Op.put 1 11, Op.put 2 22, Op.put 3 33, Op.put 4 44]),
       (LRUCache.__getitem__
        (run c0 [Op.put 1 11, Op.put 2 22, Op.put 3 33, Op.put 4 44])
        1).isSome,
       LRUCache.__len__
        (run c0 [Op.put 1 11, Op.put 2 22, Op.put 3 33, Op.put 4 44])))
      = some ([(2, some 22), (3, some 33), (4, some 44)], false, 3) := by
  constructor
  · obtain ⟨c', hset, hwf', hld', hsz', hnx', hleft⟩ :=
      __setitem___evict c front e k v hwf hk (le_of_eq hfull.symm)
    have he21 : e.2.1 ∉ absKeys front := by
      have := hwf.keysNodup
      simp only [absKeys_append, absKeys_cons, absKeys_nil] at this
      rw [List.nodup_append] at this
      intro hmem
      exact this.2.2 hmem (List.mem_cons_self _ _)
    refine ⟨c', hset, hleft, hwf', ?_, ?_, ?_⟩
    · have := seg_head_right _ _ _ _ hwf'.ring
      simpa using this
    · rw [hwf'.len_eq, ← hfull, hwf.len_eq]
      simp
    · intro k'
      rw [hwf'.has_key_iff, hwf.has_key_iff]
      simp only [absKeys_cons, absKeys_append, absKeys_nil, List.mem_cons,
        List.mem_append, List.mem_singleton, List.not_mem_nil, or_false]
      constructor
      · rintro (rfl | hm)
        · exact Or.inl rfl
        · refine Or.inr ⟨Or.inl hm, ?_⟩
          rintro rfl
          exact he21 hm
      · rintro (rfl | ⟨hor, hne⟩)
        · exact Or.inl rfl
        · rcases hor with hm | rfl
          · exact Or.inr hm
          · exact absurd rfl hne
  · decide

/-- C1 witness: the general statement applied to the concrete capacity-3
state holding keys 1,2,3, putting key 4. -/
theorem C1_eviction_witness :
    ∃ c', LRUCache.__setitem__ exC123 4 44 = some c' ∧
      (exC123.heap 0).left = 1 ∧
      WF c' ((1, 4, 44) :: [(3, 3, 33), (2, 2, 22)]) ∧
      (c'.heap 0).right = 1 ∧
      c'.__len__ = exC123._size ∧
      (∀ k', c'.has_key k' = true ↔
        (k' = 4 ∨ (exC123.has_key k' = true ∧ k' ≠ 1))) :=
  (C1_eviction exC123 [(3, 3, 33), (2, 2, 22)] (1, 1, 11) 4 44
    ⟨by decide, by decide, by decide, by decide, by decide, by decide,
      by decide, by decide, by decide, by decide, by decide⟩
    (by decide) (by decide)).1

/-- C2: starting from any successful construction, after any sequence of
public calls the number of live entries never exceeds the capacity fixed at
construction; sequences of `put` calls with distinct keys are the special
case where every op is a `put`. -/
theorem C2_capacity_bound (size : Nat) (c0 : LRUCache K V)
    (ops : List (Op K V)) (h : LRUCache.init size = some c0) :
    (run c0 ops).__len__ ≤ size := by
  obtain ⟨abs, hwf, hsz⟩ := reachable_wf size c0 ops h
  rw [hwf.len_eq, ← hsz]
  exact hwf.capLe

/-- C2 witness: four distinct puts into a capacity-3 cache stay within the
bound. -/
theorem C2_capacity_bound_witness :
    (run exC0 [Op.put 1 11, Op.put 2 22, Op.put 3 33,
      Op.put 4 44]).__len__ ≤ 3 :=
  C2_capacity_bound 3 exC0
    [Op.put 1 11, Op.put 2 22, Op.put 3 33, Op.put 4 44] rfl

/-- C4: in every state reachable from construction by public calls, walking
the circular list from the anchor terminates back at the anchor (fuel one
more than the entry count suffices: a single sentinel-closed ring, hence no
other cycle), visits pairwise distinct nodes, and the keys on the visited
non-anchor nodes are exactly the keys in the hashmap. -/
theorem C4_ring_invariant (size : Nat) (c0 : LRUCache K V)
    (ops : List (Op K V)) (h : LRUCache.init size = some c0) :
    ∃ ids : List Nat,
      walkRight (run c0 ops).heap ((run c0 ops).__len__ + 1)
        (((run c0 ops).heap 0).right) = some ids ∧
      ids.Nodup ∧
      (ids.map fun i => ((run c0 ops).heap i).key).Perm
        ((run c0 ops)._ldict.map fun pr => some pr.1) := by
  obtain ⟨abs, hwf, _⟩ := reachable_wf size c0 ops h
  refine ⟨absIds abs, ?_, hwf.idsNodup, ?_⟩
  · rw [hwf.len_eq, ← absIds_length]
    exact walkRight_of_seg _ _ _ hwf.ring
      (fun hmem => hwf.idsPos 0 hmem rfl)
  · rw [ids_keys_eq _ _ hwf]
    have h1 : ((run c0 ops)._ldict.map fun pr => some pr.1)
        = ((run c0 ops)._ldict.map Prod.fst).map some := by
      rw [List.map_map]
      rfl
    rw [h1]
    have h2 : ((run c0 ops)._ldict.map Prod.fst).Perm (absKeys abs) := by
      have := hwf.dict.map Prod.fst
      rwa [absDict_fst] at this
    exact (h2.map some).symm

/-- C4 witness: the invariant read off after four puts into a capacity-3
cache. -/
theorem C4_ring_invariant_witness :
    ∃ ids : List Nat,
      walkRight (run exC0 [Op.put 1 11, Op.put 2 22, Op.put 3 33,
          Op.put 4 44]).heap
        ((run exC0 [Op.put 1 11, Op.put 2 22, Op.put 3 33,
          Op.put 4 44]).__len__ + 1)
        (((run exC0 [Op.put 1 11, Op.put 2 22, Op.put 3 33,
          Op.put 4 44]).heap 0).right) = some ids ∧
      ids.Nodup ∧
      (ids.map fun i => ((run exC0 [Op.put 1 11, Op.put 2 22, Op.put 3 33,
          Op.put 4 44]).heap i).key).Perm
        ((run exC0 [Op.put 1 11, Op.put 2 22, Op.put 3 33,
          Op.put 4 44])._ldict.map fun pr => some pr.1) :=
  C4_ring_invariant 3 exC0
    [Op.put 1 11, Op.put 2 22, Op.put 3 33, Op.put 4 44] rfl

/-- C3: after inserting distinct keys `k1..kn` (n within capacity) in order
into an empty Recency Store, `__repr__` (`to_ordered_list`) lists the
entries oldest-first in exactly the insertion order, and a subsequent
successful `get(k1)` returns its value and moves it to the newest position,
making the order `k2..kn, k1`. -/
theorem C3_recency_order (size : Nat) (c0 : LRUCache K V) (p : K × V)
    (rest : List (K × V)) (h : LRUCache.init size = some c0)
    (hnd : ((p :: rest).map Prod.fst).Nodup)
    (hlen : (p :: rest).length ≤ size) :
    LRUCache.__repr__ (run c0 ((p :: rest).map fun q => Op.put q.1 q.2))
      = (p :: rest).map (fun q => (q.1, some q.2)) ∧
    ∃ c', LRUCache.__getitem__
        (run c0 ((p :: rest).map fun q => Op.put q.1 q.2)) p.1
        = some (some p.2, c') ∧
      LRUCache.__repr__ c'
        = (rest.map fun q => (q.1, some q.2)) ++ [(p.1, some p.2)] := by
  obtain ⟨hwf0, hsz0⟩ := init_wf size c0 h
  obtain ⟨abs', hwf', hkv⟩ := putAll_fresh (p :: rest) c0 [] hwf0
    (by simp) hnd (by simpa [hsz0] using hlen)
  rw [absKV_nil, List.append_nil] at hkv
  have hrepr : LRUCache.__repr__
      (run c0 ((p :: rest).map fun q => Op.put q.1 q.2))
      = (p :: rest).map fun q => (q.1, some q.2) := by
    rw [repr_eq_absKV _ abs' hwf', hkv, List.reverse_reverse]
  refine ⟨hrepr, ?_⟩
  have hne : abs' ≠ [] := by
    intro h0
    rw [h0] at hkv
    simp only [absKV_nil, List.reverse_cons] at hkv
    exact List.append_ne_nil_of_right_ne_nil _ (by simp) hkv.symm
  obtain ⟨front, e, habs⟩ : ∃ front e, abs' = front ++ [e] :=
    ⟨abs'.dropLast, abs'.getLast hne,
      (List.dropLast_append_getLast hne).symm⟩
  have hkv2 : absKV front ++ [(e.2.1, e.2.2)] = rest.reverse ++ [p] := by
    rw [habs] at hkv
    simpa using hkv
  obtain ⟨hfrontkv, hekv⟩ := List.append_inj' hkv2 rfl
  have hp : (e.2.1, e.2.2) = p := by
    simpa using hekv
  have hp1 : e.2.1 = p.1 := congrArg Prod.fst hp
  have hp2 : e.2.2 = p.2 := congrArg Prod.snd hp
  rw [habs] at hwf'
  obtain ⟨c', hgeteq, hwfc', _, _, _⟩ :=
    __getitem___present _ front [] e hwf'
  have hwfc'' : WF c' (e :: front) := by simpa using hwfc'
  refine ⟨c', ?_, ?_⟩
  · rw [← hp1, ← hp2]
    exact hgeteq
  · rw [repr_eq_absKV c' (e :: front) hwfc'', absKV_cons, hp, hfrontkv]
    simp

/-- C3 witness: keys 1,2,3 into a capacity-3 cache, then `get(1)`. -/
theorem C3_recency_order_witness :
    LRUCache.__repr__ (run exC0
        ([((1 : Nat), (11 : Nat)), (2, 22), (3, 33)].map
          fun q => Op.put q.1 q.2))
      = [((1 : Nat), (11 : Nat)), (2, 22), (3, 33)].map
          (fun q => (q.1, some q.2)) ∧
    ∃ c', LRUCache.__getitem__ (run exC0
        ([((1 : Nat), (11 : Nat)), (2, 22), (3, 33)].map
          fun q => Op.put q.1 q.2)) 1
        = some (some 11, c') ∧
      LRUCache.__repr__ c'
        = ([((2 : Nat), (22 : Nat)), (3, 33)].map
            fun q => (q.1, some q.2)) ++ [(1, some 11)] :=
  C3_recency_order 3 exC0 (1, 11) [(2, 22), (3, 33)] rfl (by decide)
    (by decide)

/-- C7: Recency Store `get` and `delete` (`pop`) fail exactly when the key
is absent, and a failed call leaves the state unchanged (the raise happens
at the dictionary lookup, before any mutation); on a present key, `pop`
returns the stored value and removes the entry, so a second `pop` of the
same key fails. -/
theorem C7_notfound (c : LRUCache K V) (abs : Abs K V) (hwf : WF c abs)
    (k : K) :
    (c.__getitem__ k = none ↔ c.has_key k = false) ∧
    (c.pop k = none ↔ c.has_key k = false) ∧
    (c.has_key k = false →
      applyOp c (Op.get k) = c ∧ applyOp c (Op.pop k) = c) ∧
    (∀ xs ys (e : Nat × K × V), abs = xs ++ e :: ys → e.2.1 = k →
      ∃ c', c.pop k = some (some e.2.2, c') ∧
        c'.has_key k = false ∧ c'.pop k = none ∧
        c'.__len__ + 1 = c.__len__) := by
  have habsent : c.has_key k = false ↔ k ∉ absKeys abs := by
    rw [← Bool.not_eq_true, not_iff_not.2 (hwf.has_key_iff k)]
  refine ⟨?_, ?_, ?_, ?_⟩
  · by_cases hk : k ∈ absKeys abs
    · obtain ⟨xs, e, ys, habs, hek⟩ := mem_absKeys_decomp abs k hk
      subst hek
      rw [habs] at hwf
      obtain ⟨c', hget, _⟩ := __getitem___present c xs ys e hwf
      rw [hget]
      simp only [habs] at habsent
      constructor
      · intro hcon
        exact Option.noConfusion hcon
      · intro hfalse
        exact absurd (habsent.1 hfalse)
          (by simp [List.mem_append, List.mem_cons])
    · rw [__getitem___absent c abs k hwf hk, habsent]
      simp [hk]
  · by_cases hk : k ∈ absKeys abs
    · obtain ⟨xs, e, ys, habs, hek⟩ := mem_absKeys_decomp abs k hk
      subst hek
      rw [habs] at hwf
      obtain ⟨c', hpop, _⟩ := pop_present c xs ys e hwf
      rw [hpop]
      simp only [habs] at habsent
      constructor
      · intro hcon
        exact Option.noConfusion hcon
      · intro hfalse
        exact absurd (habsent.1 hfalse)
          (by simp [List.mem_append, List.mem_cons])
    · rw [pop_absent c abs k hwf hk, habsent]
      simp [hk]
  · intro hfalse
    have hk : k ∉ absKeys abs := habsent.1 hfalse
    constructor
    · simp only [applyOp]
      rw [__getitem___absent c abs k hwf hk]
    · simp only [applyOp]
      rw [pop_absent c abs k hwf hk]
  · intro xs ys e habs hek
    subst hek
    rw [habs] at hwf
    obtain ⟨c', hpop, hwf', _, _, _⟩ := pop_present c xs ys e hwf
    have hknotin : e.2.1 ∉ absKeys (xs ++ ys) := by
      have := hwf.keysNodup
      simp only [absKeys_append, absKeys_cons] at this ⊢
      rw [List.nodup_append] at this
      rw [List.mem_append]
      rintro (hmem | hmem)
      · exact this.2.2 hmem (List.mem_cons_self _ _)
      · exact (List.nodup_cons.1 this.2.1).1 hmem
    refine ⟨c', hpop, ?_, pop_absent c' (xs ++ ys) e.2.1 hwf' hknotin, ?_⟩
    · rw [Bool.eq_false_iff]
      intro htrue
      exact hknotin ((hwf'.has_key_iff e.2.1).1 htrue)
    · rw [hwf'.len_eq, hwf.len_eq]
      simp
      omega

/-- C7 witness: the concrete capacity-3 state holding keys 1,2,3, with key
1 present; the present-key clause is instantiated at its entry. -/
theorem C7_notfound_witness :
    ∃ c', exC123.pop 1 = some (some 11, c') ∧
      c'.has_key 1 = false ∧ c'.pop 1 = none ∧
      c'.__len__ + 1 = exC123.__len__ :=
  (C7_notfound exC123 [(3, 3, 33), (2, 2, 22), (1, 1, 11)]
    ⟨by decide, by decide, by decide, by decide, by decide, by decide,
      by decide, by decide, by decide, by decide, by decide⟩ 1).2.2.2
    [(3, 3, 33), (2, 2, 22)] [] (1, 1, 11) rfl rfl

/-- C8: `put` of an already-present key replaces the stored value in place
and moves the entry (same link object) to the most-recently-used position:
the entry count is unchanged, no key is evicted, and a subsequent `get`
returns the new value. -/
theorem C8_overwrite (c : LRUCache K V) (xs ys : Abs K V) (e : Nat × K × V)
    (v2 : V) (hwf : WF c (xs ++ e :: ys)) :
    ∃ c', c.__setitem__ e.2.1 v2 = some c' ∧
      c'.__len__ = c.__len__ ∧
      (∀ k', c'.has_key k' = c.has_key k') ∧
      (c'.heap 0).right = e.1 ∧
      ∃ c'', c'.__getitem__ e.2.1 = some (some v2, c'') := by
  obtain ⟨c', hset, hwf', hld, _, _⟩ := __setitem___present c xs ys e v2 hwf
  refine ⟨c', hset, ?_, ?_, ?_, ?_⟩
  · rw [LRUCache.__len__, LRUCache.__len__, hld]
  · intro k'
    rw [LRUCache.has_key, LRUCache.has_key, hld]
  · have := seg_head_right _ _ _ _ hwf'.ring
    simpa using this
  · obtain ⟨c'', hget, _⟩ :=
      __getitem___present c' [] (xs ++ ys) (e.1, e.2.1, v2)
        (by simpa using hwf')
    exact ⟨c'', hget⟩

/-- C8 witness: overwriting key 2 in the concrete capacity-3 state. -/
theorem C8_overwrite_witness :
    ∃ c', exC123.__setitem__ 2 99 = some c' ∧
      c'.__len__ = exC123.__len__ ∧
      (∀ k', c'.has_key k' = exC123.has_key k') ∧
      (c'.heap 0).right = 2 ∧
      ∃ c'', c'.__getitem__ 2 = some (some 99, c'') :=
  C8_overwrite exC123 [(3, 3, 33)] [(1, 1, 11)] (2, 2, 22) 99
    ⟨by decide, by decide, by decide, by decide, by decide, by decide,
      by decide, by decide, by decide, by decide, by decide⟩

/-- C5: a TTL Cache `get` that finds the key but a stored expiry strictly
before the current time deletes the entry from the store, adds one miss,
and fails — observably the same as an absent key.  Concretely with
`ttl = -1`: after `put(1, 'x')` at time 0, `get(1)` at time 0 fails and
`stats()` is `(0, 1, 0)`. -/
theorem C5_ttl_expiry (t : LRUTimeCache K V) (xs ys : Abs K (Int × V))
    (i : Nat) (k : K) (ex : Int) (v : V) (now : Int)
    (hwf : WF t._lru_cache (xs ++ (i, k, (ex, v)) :: ys))
    (hexp : ex < now) :
    (∃ t', t.get k now = some (none, t') ∧
      t'._misses = t._misses + 1 ∧ t'._hits = t._hits ∧
      t'._lru_cache.has_key k = false ∧
      t'._lru_cache.__len__ + 1 = t._lru_cache.__len__) ∧
    ((LRUTimeCache.init 2 (-1) : Option (LRUTimeCache Nat Nat)).map
      fun t0 => (t0.put 1 10 0).map fun t1 =>
        (t1.get 1 0).map fun r => (r.1, r.2.stats))
      = some (some (some (none, 0, 1, 0))) := by
  constructor
  · obtain ⟨t', hgt, _, hm, hh, hhk, hlen, _, _⟩ :=
      LRUTimeCache.get_expired_spec t xs ys i k ex v now hwf hexp
    exact ⟨t', hgt, hm, hh, hhk, hlen⟩
  · decide

/-- C5 witness: the general clause applied to the concrete TTL cache with
an already-expired entry for key 1. -/
theorem C5_ttl_expiry_witness :
    ∃ t', exT1.get 1 0 = some (none, t') ∧
      t'._misses = exT1._misses + 1 ∧ t'._hits = exT1._hits ∧
      t'._lru_cache.has_key 1 = false ∧
      t'._lru_cache.__len__ + 1 = exT1._lru_cache.__len__ :=
  (C5_ttl_expiry exT1 [] [] 1 1 (-1) 10 0
    ⟨by decide, by decide, by decide, by decide, by decide, by decide,
      by decide, by decide, by decide, by decide, by decide⟩
    (by decide)).1

/-- C6: over every sequence of TTL Cache calls from construction,
`hits + misses` equals the number of `get` calls issued since construction
or the last `clean` (each `get`, including the expired path, increments
exactly one of the two counters by exactly one), and `clean` resets both
counters to zero together with emptying the store. -/
theorem C6_stats_accounting (size : Nat) (ttl : Int)
    (t0 : LRUTimeCache K V) (ops : List (TOp K V))
    (h : LRUTimeCache.init size ttl = some t0) :
    ((runT t0 ops)._hits + (runT t0 ops)._misses = getCountFrom 0 ops) ∧
    (∀ (t : LRUTimeCache K V) (abs : Abs K (Int × V)) (k : K) (now : Int),
      WF t._lru_cache abs →
      ∃ r, t.get k now = some r ∧
        ((r.2._hits = t._hits + 1 ∧ r.2._misses = t._misses) ∨
         (r.2._hits = t._hits ∧ r.2._misses = t._misses + 1))) ∧
    (∀ t : LRUTimeCache K V, (LRUTimeCache.clean t)._hits = 0 ∧
      (LRUTimeCache.clean t)._misses = 0 ∧
      (LRUTimeCache.clean t)._lru_cache.__len__ = 0) := by
  obtain ⟨hwf0, hh0, hm0, _, _⟩ := initT_wf size ttl t0 h
  refine ⟨?_, ?_, fun t => ⟨rfl, rfl, rfl⟩⟩
  · have := (runT_stats ops t0 [] hwf0).2
    rw [hh0, hm0] at this
    simpa using this
  · intro t abs k now hwf
    by_cases hk : k ∈ absKeys abs
    · obtain ⟨xs, e, ys, habs, hek⟩ := mem_absKeys_decomp abs k hk
      obtain ⟨i, k', ex, v⟩ := e
      cases hek
      rw [habs] at hwf
      by_cases hexp : ex < now
      · obtain ⟨t', hgt, _, hm, hh, _⟩ :=
          LRUTimeCache.get_expired_spec t xs ys i k' ex v now hwf hexp
        exact ⟨(none, t'), hgt, Or.inr ⟨hh, hm⟩⟩
      · obtain ⟨t', hgt, _, hh, hm, _⟩ :=
          LRUTimeCache.get_hit_spec t xs ys i k' ex v now hwf hexp
        exact ⟨(some v, t'), hgt, Or.inl ⟨hh, hm⟩⟩
    · exact ⟨(none, { t with _misses := t._misses + 1 }),
        LRUTimeCache.get_absent_spec t abs k now hwf hk,
        Or.inr ⟨rfl, rfl⟩⟩

/-- C6 witness: a mixed trace of puts, gets (hit, miss and expired alike)
and a clean on the concrete TTL cache. -/
theorem C6_stats_accounting_witness :
    (runT exT0 [TOp.put 1 10 0, TOp.get 1 0, TOp.get 2 3, TOp.clean,
        TOp.get 1 5])._hits +
      (runT exT0 [TOp.put 1 10 0, TOp.get 1 0, TOp.get 2 3, TOp.clean,
        TOp.get 1 5])._misses
      = getCountFrom 0 [TOp.put (1 : Nat) (10 : Nat) 0, TOp.get 1 0,
        TOp.get 2 3, TOp.clean, TOp.get 1 5] :=
  (C6_stats_accounting 2 (-1) exT0
    [TOp.put 1 10 0, TOp.get 1 0, TOp.get 2 3, TOp.clean, TOp.get 1 5]
    rfl).1

/-- C9: constructing a Recency Store — or a TTL Cache, which constructs
one — with capacity 0 or 1 (any capacity below 2) raises
`InvalidConfiguration` (`ValueError`), and construction with capacity at
least 2 succeeds. -/
theorem C9_construction_guard (n : Nat) (ttl : Int) :
    ((LRUCache.init n : Option (LRUCache K V)) = none ↔ n < 2) ∧
    ((LRUTimeCache.init n ttl : Option (LRUTimeCache K V)) = none ↔
      n < 2) ∧
    (2 ≤ n → (∃ c : LRUCache K V, LRUCache.init n = some c) ∧
      ∃ t : LRUTimeCache K V, LRUTimeCache.init n ttl = some t) := by
  refine ⟨init_none_iff n, ⟨?_, ?_⟩, ?_⟩
  · intro hnone
    rw [LRUTimeCache.init] at hnone
    cases hc : (LRUCache.init n : Option (LRUCache K (Int × V))) with
    | none => exact (init_none_iff n).1 hc
    | some c =>
      rw [hc] at hnone
      exact Option.noConfusion hnone
  · intro hlt
    rw [LRUTimeCache.init, (init_none_iff n).2 hlt]
    rfl
  · intro h2
    obtain ⟨c, hc, _, _⟩ := init_spec (K := K) (V := V) n h2
    obtain ⟨c2, hc2, _, _⟩ := init_spec (K := K) (V := Int × V) n h2
    refine ⟨⟨c, hc⟩,
      ⟨{ _lru_cache := c2, _ttl := ttl, _hits := 0, _misses := 0 }, ?_⟩⟩
    rw [LRUTimeCache.init, hc2]
    rfl

/-- C10: a TTL Cache `put` of an already-present key overwrites the stored
pair with the freshly computed `(now + ttl, value)`, refreshing the expiry
deadline as well as the value: a later `get` within the new deadline is a
hit returning the new value, even though the original deadline has already
passed. -/
theorem C10_ttl_refresh (t : LRUTimeCache K V) (xs ys : Abs K (Int × V))
    (i : Nat) (k : K) (ex0 : Int) (v0 : V) (v : V) (now tGet : Int)
    (hwf : WF t._lru_cache (xs ++ (i, k, (ex0, v0)) :: ys))
    (hold : ex0 < tGet) (hnew : ¬ now + t._ttl < tGet) :
    ∃ t', t.put k v now = some t' ∧
      (t'._lru_cache.heap i).obj = some (now + t._ttl, v) ∧
      ∃ t'', t'.get k tGet = some (some v, t'') ∧
        t''._hits = t._hits + 1 ∧ t''._misses = t._misses := by
  obtain ⟨c', hset, hwf', _, _, _⟩ :=
    __setitem___present t._lru_cache xs ys (i, k, (ex0, v0))
      (now + t._ttl, v) hwf
  refine ⟨{ t with _lru_cache := c' }, ?_, ?_, ?_⟩
  · rw [LRUTimeCache.put, hset]
    rfl
  · exact (hwf'.data _ (List.mem_cons_self _ _)).2
  · obtain ⟨t'', hgt, _, hh, hm, _⟩ :=
      LRUTimeCache.get_hit_spec { t with _lru_cache := c' } [] (xs ++ ys)
        i k (now + t._ttl) v tGet (by simpa using hwf') hnew
    exact ⟨t'', hgt, hh, hm⟩

/-- C10 witness: re-putting key 1 (originally expired at `-1`) at time 5
with TTL `-1`, then getting it at time 2, inside the refreshed deadline but
past the original one. -/
theorem C10_ttl_refresh_witness :
    ∃ t', exT1.put 1 77 5 = some t' ∧
      (t'._lru_cache.heap 1).obj = some (5 + exT1._ttl, 77) ∧
      ∃ t'', t'.get 1 2 = some (some 77, t'') ∧
        t''._hits = exT1._hits + 1 ∧ t''._misses = exT1._misses :=
  C10_ttl_refresh exT1 [] [] 1 1 (-1) 10 77 5 2
    ⟨by decide, by decide, by decide, by decide, by decide, by decide,
      by decide, by decide, by decide, by decide, by decide⟩
    (by decide) (by decide)

end LRU
